import Mathlib

/-!
# Verification of `prime_count` (wasm-benchmark/clang.c)

The C program is embedded shallowly.  A C `int` is an `Int`; the only
arithmetic of the source that can leave the 32-bit range is `++`, so both
loops take the meaning of `++` as a parameter `incr`:

* `incr_wrap`    : 32-bit two's-complement wrap-around (what the wasm target does),
* `incr_exact`   : exact integers; not the program, but the unbounded computation
  that the 32-bit one is compared with,
* `incr_checked` : an overflowing `++` is an error.

Each `for` loop is a function that spends one unit of `fuel` per test of its
loop condition and answers `none` when the fuel is used up.

The instrumented program (`inner_loop_trace`, `outer_loop_trace`,
`prime_count_trace`) takes the same steps and also lists them as `Event`s: the
loop tests with the values the variables then hold, and the evaluations of
`i % j`.  Its result is that of the plain program (`prime_count_trace_result`).

The program on a frame (`inner_loop_store`, `outer_loop_store`,
`prime_count_store`) keeps the four locals in an explicit record that is handed
from one call to the next, to say that a call does not depend on what an
earlier call left behind.
-/

namespace PrimeCount

/-! ## Machine integers -/

/-- Largest value of a 32-bit signed `int`. -/
def INT_MAX : Int := 2147483647

/-- Smallest value of a 32-bit signed `int`. -/
def INT_MIN : Int := -2147483648

/-- The 32-bit two's-complement representative of an exact integer. -/
def wrap32 (x : Int) : Int := (x + 2147483648) % 4294967296 - 2147483648

/-- The statement `x++` on a wrapping 32-bit `int`. -/
def incr_wrap (x : Int) : Option Int := some (wrap32 (x + 1))

/-- The statement `x++` on exact (unbounded) integers: the unbounded
computation that the 32-bit program is compared with, not the program itself. -/
def incr_exact (x : Int) : Option Int := some (x + 1)

/-! ## The program -/

/-- The statement `is_prime &= i % j != 0;`: C's `%` truncates (`Int.tmod`),
`!=` yields the `int` 1 or 0, and `&` is bitwise. -/
def is_prime_update (i j is_prime : Int) : Int :=
  Int.land is_prime (if Int.tmod i j ≠ 0 then 1 else 0)

/-- The loop `for (int j = 2; j < i; j++) { is_prime &= i % j != 0; }`
entered with the current `j` and `is_prime`; gives the final `is_prime`. -/
def inner_loop (incr : Int → Option Int) : Nat → Int → Int → Int → Option Int
  | 0, _, _, _ => none
  | fuel + 1, i, j, is_prime =>
    if j < i then
      match incr j with
      | none => none
      | some j' => inner_loop incr fuel i j' (is_prime_update i j is_prime)
    else some is_prime

/-- The loop `for (int i = 2; i <= n; i++) { ... }` entered with the current
`i` and `count`; gives the final `count`. -/
def outer_loop (incr : Int → Option Int) : Nat → Int → Int → Int → Option Int
  | 0, _, _, _ => none
  | fuel + 1, n, i, count =>
    if i ≤ n then
      match inner_loop incr fuel i 2 1 with
      | none => none
      | some is_prime =>
        match (if is_prime ≠ 0 then incr count else some count) with
        | none => none
        | some count' =>
          match incr i with
          | none => none
          | some i' => outer_loop incr fuel n i' count'
    else some count

/-- The function `int prime_count(int n)`. -/
def prime_count (incr : Int → Option Int) (fuel : Nat) (n : Int) : Option Int :=
  outer_loop incr fuel n 2 0

/-- The conversion `printf("%d\n", r)`: the decimal digits of `r`, with a
leading minus sign when negative, followed by a newline. -/
def printf_d_newline (r : Int) : String := toString r ++ "\n"

/-- The function `int main()`: the text written to standard output and the
exit status. -/
def main (fuel : Nat) : Option (String × Int) :=
  match prime_count incr_wrap fuel 10000 with
  | none => none
  | some r => some (printf_d_newline r, 0)

/-! ## The variant with a logical AND -/

/-- The statement `is_prime = is_prime && (i % j != 0);`. -/
def is_prime_update_logical (i j is_prime : Int) : Int :=
  if is_prime ≠ 0 ∧ Int.tmod i j ≠ 0 then 1 else 0

/-- The inner loop with `is_prime_update_logical` as its body. -/
def inner_loop_logical (incr : Int → Option Int) : Nat → Int → Int → Int → Option Int
  | 0, _, _, _ => none
  | fuel + 1, i, j, is_prime =>
    if j < i then
      match incr j with
      | none => none
      | some j' => inner_loop_logical incr fuel i j' (is_prime_update_logical i j is_prime)
    else some is_prime

/-- The outer loop around `inner_loop_logical`. -/
def outer_loop_logical (incr : Int → Option Int) : Nat → Int → Int → Int → Option Int
  | 0, _, _, _ => none
  | fuel + 1, n, i, count =>
    if i ≤ n then
      match inner_loop_logical incr fuel i 2 1 with
      | none => none
      | some is_prime =>
        match (if is_prime ≠ 0 then incr count else some count) with
        | none => none
        | some count' =>
          match incr i with
          | none => none
          | some i' => outer_loop_logical incr fuel n i' count'
    else some count

/-- The function `prime_count` with `&=` replaced by `= ... && ...`. -/
def prime_count_logical (incr : Int → Option Int) (fuel : Nat) (n : Int) : Option Int :=
  outer_loop_logical incr fuel n 2 0

/-! ## The program on an explicit frame of locals -/

/-- The four locals of `prime_count`.  C gives a local no value until its
initialiser runs, so a call finds in its frame whatever was left there. -/
structure Frame where
  /-- The local `count`. -/
  count : Int
  /-- The local `i`. -/
  i : Int
  /-- The local `is_prime`. -/
  is_prime : Int
  /-- The local `j`. -/
  j : Int
  deriving DecidableEq

/-- The inner loop on the frame, from the test `j < i` on: the body stores
`is_prime &= i % j != 0` and `j++` stores the next `j`. -/
def inner_loop_store (incr : Int → Option Int) : Nat → Frame → Option Frame
  | 0, _ => none
  | fuel + 1, s =>
    if s.j < s.i then
      match incr s.j with
      | none => none
      | some j' =>
        inner_loop_store incr fuel
          (Frame.mk s.count s.i (is_prime_update s.i s.j s.is_prime) j')
    else some s

/-- The outer loop on the frame, from the test `i <= n` on: the body stores
`is_prime = 1` and `j = 2`, runs the inner loop, then `count++` if `is_prime`
is not 0, and `i++`. -/
def outer_loop_store (incr : Int → Option Int) : Nat → Int → Frame → Option Frame
  | 0, _, _ => none
  | fuel + 1, n, s =>
    if s.i ≤ n then
      match inner_loop_store incr fuel (Frame.mk s.count s.i 1 2) with
      | none => none
      | some s1 =>
        match (if s1.is_prime ≠ 0 then incr s1.count else some s1.count) with
        | none => none
        | some count' =>
          match incr s1.i with
          | none => none
          | some i' => outer_loop_store incr fuel n (Frame.mk count' i' s1.is_prime s1.j)
    else some s

/-- The function `prime_count` called on a frame holding anything: it stores
`count = 0` and `i = 2`, runs the outer loop and returns `count`; the frame is
left as it is for the next call. -/
def prime_count_store (incr : Int → Option Int) (fuel : Nat) (n : Int) (s : Frame) :
    Option (Int × Frame) :=
  match outer_loop_store incr fuel n (Frame.mk 0 2 s.is_prime s.j) with
  | none => none
  | some s1 => some (s1.count, s1)

/-- Calls of `prime_count` one after the other on the given arguments, each on
the frame the previous one left; gives the results in order. -/
def run_calls (incr : Int → Option Int) (fuel : Nat) : List Int → Frame → Option (List Int × Frame)
  | [], s => some ([], s)
  | n :: rest, s =>
    match prime_count_store incr fuel n s with
    | none => none
    | some (r, s1) =>
      match run_calls incr fuel rest s1 with
      | none => none
      | some (rs, s2) => some (r :: rs, s2)

/-! ## Specification-side predicates and proof devices -/

/-- No number from 2 to `i - 1` leaves remainder 0 when dividing `i`. -/
def trial_prime (i : Int) : Prop := ∀ j ∈ Finset.Icc (2 : Int) (i - 1), i % j ≠ 0

instance trial_prime_decidable : DecidablePred trial_prime :=
  fun i => inferInstanceAs (Decidable (∀ j ∈ Finset.Icc (2 : Int) (i - 1), i % j ≠ 0))

/-- Proof device, not part of the program: trial division of `n` by `d`,
`d + 1`, ... that stops once `d * d` exceeds `n` or after `f` divisors.  It
is only used to evaluate the number of primes up to 10000. -/
def trialFrom (n : Nat) : Nat → Nat → Bool
  | 0, _ => true
  | f + 1, d => if n < d * d then true else if n % d = 0 then false else trialFrom n f (d + 1)

/-- Proof device: a primality test that is exact below `102 * 102`. -/
def isPrimeFast (n : Nat) : Bool := decide (2 ≤ n) && trialFrom n 100 2

/-- Proof device: how many of `a`, `a + 1`, ..., `a + len - 1` pass `isPrimeFast`. -/
def countFast : Nat → Nat → Nat
  | 0, _ => 0
  | len + 1, a => (if isPrimeFast a then 1 else 0) + countFast len (a + 1)

/-! ## Further readings and variants of the program -/

/-- The statement `x++` where signed overflow is an error: there is no value
when `x` is already `INT_MAX`. -/
def incr_checked (x : Int) : Option Int := if x < INT_MAX then some (x + 1) else none

/-- The inner loop with an early exit:
`for (int j = 2; j < i; j++) { if (i % j == 0) { is_prime = 0; break; } }`. -/
def inner_loop_early (incr : Int → Option Int) : Nat → Int → Int → Int → Option Int
  | 0, _, _, _ => none
  | fuel + 1, i, j, is_prime =>
    if j < i then
      if Int.tmod i j = 0 then some 0
      else
        match incr j with
        | none => none
        | some j' => inner_loop_early incr fuel i j' is_prime
    else some is_prime

/-- The outer loop around `inner_loop_early`. -/
def outer_loop_early (incr : Int → Option Int) : Nat → Int → Int → Int → Option Int
  | 0, _, _, _ => none
  | fuel + 1, n, i, count =>
    if i ≤ n then
      match inner_loop_early incr fuel i 2 1 with
      | none => none
      | some is_prime =>
        match (if is_prime ≠ 0 then incr count else some count) with
        | none => none
        | some count' =>
          match incr i with
          | none => none
          | some i' => outer_loop_early incr fuel n i' count'
    else some count

/-- The function `prime_count` with the early-exit inner loop. -/
def prime_count_early (incr : Int → Option Int) (fuel : Nat) (n : Int) : Option Int :=
  outer_loop_early incr fuel n 2 0

/-! ## The instrumented program -/

/-- What a run of `prime_count` does, step by step. -/
inductive Event where
  /-- The test `i <= n` is made with these values of `i` and `count`. -/
  | outer_test (i count : Int)
  /-- The test `j < i` is made with these values of `i`, `j` and `is_prime`. -/
  | inner_test (i j is_prime : Int)
  /-- The expression `i % j` is evaluated with these values of `i` and `j`. -/
  | modulo (i j : Int)
  deriving DecidableEq

/-- The values of `i`, `j`, `i % j`, `is_prime` and `count` that an event shows. -/
def Event.values : Event → List Int
  | Event.outer_test i count => [i, count]
  | Event.inner_test i j is_prime => [i, j, is_prime]
  | Event.modulo i j => [i, j, Int.tmod i j]

/-- Whether the event is an evaluation of `i % j`. -/
def Event.is_modulo : Event → Bool
  | Event.modulo _ _ => true
  | _ => false

/-- The number of evaluations of `i % j` in a list of events. -/
def modulo_count (events : List Event) : Nat := events.countP Event.is_modulo

/-- The inner loop instrumented: the same steps as `inner_loop`, giving also the
events in the order they happen.  The events are kept when the fuel runs out. -/
def inner_loop_trace (incr : Int → Option Int) :
    Nat → Int → Int → Int → List Event × Option Int
  | 0, _, _, _ => ([], none)
  | fuel + 1, i, j, is_prime =>
    if j < i then
      match incr j with
      | none => ([Event.inner_test i j is_prime, Event.modulo i j], none)
      | some j' =>
        let rest := inner_loop_trace incr fuel i j' (is_prime_update i j is_prime)
        (Event.inner_test i j is_prime :: Event.modulo i j :: rest.1, rest.2)
    else ([Event.inner_test i j is_prime], some is_prime)

/-- The outer loop instrumented: the same steps as `outer_loop`, giving also the
events in the order they happen. -/
def outer_loop_trace (incr : Int → Option Int) :
    Nat → Int → Int → Int → List Event × Option Int
  | 0, _, _, _ => ([], none)
  | fuel + 1, n, i, count =>
    if i ≤ n then
      let inner := inner_loop_trace incr fuel i 2 1
      match inner.2 with
      | none => (Event.outer_test i count :: inner.1, none)
      | some is_prime =>
        match (if is_prime ≠ 0 then incr count else some count) with
        | none => (Event.outer_test i count :: inner.1, none)
        | some count' =>
          match incr i with
          | none => (Event.outer_test i count :: inner.1, none)
          | some i' =>
            let rest := outer_loop_trace incr fuel n i' count'
            (Event.outer_test i count :: (inner.1 ++ rest.1), rest.2)
    else ([Event.outer_test i count], some count)

/-- The function `prime_count` instrumented. -/
def prime_count_trace (incr : Int → Option Int) (fuel : Nat) (n : Int) :
    List Event × Option Int :=
  outer_loop_trace incr fuel n 2 0

/-- Invariant used in the proofs about the instrumented program: the bounds
that every event of a run on input `n` satisfies while no `++` has left the
32-bit range. -/
def Event.bounded (n : Int) : Event → Prop
  | Event.outer_test i count => 2 ≤ i ∧ i ≤ max (n + 1) 2 ∧ 0 ≤ count ∧ count + 2 ≤ i
  | Event.inner_test i j is_prime => 2 ≤ j ∧ j ≤ i ∧ i ≤ n ∧ (is_prime = 0 ∨ is_prime = 1)
  | Event.modulo i j => 2 ≤ j ∧ j < i ∧ i ≤ n

/-! ## Lemmas about the loops -/

theorem wrap32_succ (x : Int) (h0 : 0 ≤ x) (h1 : x < INT_MAX) : incr_wrap x = some (x + 1) := by
  unfold incr_wrap wrap32
  unfold INT_MAX at h1
  congr 1
  omega

theorem is_prime_update_bit (i j b : Int) (hb : b = 0 ∨ b = 1) :
    (is_prime_update i j b = 0 ∨ is_prime_update i j b = 1) ∧
      (is_prime_update i j b = 1 ↔ b = 1 ∧ Int.tmod i j ≠ 0) := by
  unfold is_prime_update
  rcases hb with rfl | rfl <;> by_cases h : Int.tmod i j = 0 <;> simp [h] <;> decide

theorem inner_loop_spec (incr : Int → Option Int) (B : Int)
    (H : ∀ x, 0 ≤ x → x < B → incr x = some (x + 1)) (i : Int) (hi : i ≤ B) :
    ∀ (fuel : Nat) (j b : Int), 2 ≤ j → j ≤ i → (i - j).toNat < fuel → (b = 0 ∨ b = 1) →
      ∃ r, inner_loop incr fuel i j b = some r ∧ (r = 0 ∨ r = 1) ∧
        (r = 1 ↔ b = 1 ∧ ∀ k, j ≤ k → k < i → i % k ≠ 0) := by
  intro fuel
  induction fuel with
  | zero => intro j b _ _ hf; omega
  | succ fuel ih =>
    intro j b hj hji hf hb
    by_cases hlt : j < i
    · have hup := is_prime_update_bit i j b hb
      obtain ⟨r, hr, hbit, hiff⟩ := ih (j + 1) (is_prime_update i j b) (by omega) (by omega)
        (by omega) hup.1
      refine ⟨r, ?_, hbit, ?_⟩
      · simp only [inner_loop, if_pos hlt, H j (by omega) (by omega), hr]
      · rw [hiff, hup.2, Int.tmod_eq_emod (by omega) (by omega)]
        constructor
        · rintro ⟨⟨h1, h2⟩, h3⟩
          refine ⟨h1, fun k hk hki => ?_⟩
          by_cases hkj : k = j
          · subst hkj; exact h2
          · exact h3 k (by omega) hki
        · rintro ⟨h1, h2⟩
          exact ⟨⟨h1, h2 j (le_refl j) hlt⟩, fun k hk hki => h2 k (by omega) hki⟩
    · refine ⟨b, ?_, hb, ?_⟩
      · simp only [inner_loop, if_neg hlt]
      · constructor
        · intro h1
          exact ⟨h1, fun k hk hki => by omega⟩
        · exact fun h => h.1

theorem card_filter_Icc_peel (P : Int → Prop) [DecidablePred P] (i n : Int) (h : i ≤ n) :
    ((Finset.Icc i n).filter P).card =
      (if P i then 1 else 0) + ((Finset.Icc (i + 1) n).filter P).card := by
  have hins : Finset.Icc i n = insert i (Finset.Icc (i + 1) n) := by
    ext x
    simp only [Finset.mem_Icc, Finset.mem_insert]
    omega
  have hnot : i ∉ (Finset.Icc (i + 1) n).filter P := by
    simp only [Finset.mem_filter, Finset.mem_Icc]
    omega
  rw [hins, Finset.filter_insert]
  by_cases hp : P i
  · rw [if_pos hp, if_pos hp, Finset.card_insert_of_not_mem hnot]
    omega
  · rw [if_neg hp, if_neg hp]
    omega

theorem card_filter_Icc_empty (P : Int → Prop) [DecidablePred P] (i n : Int) (h : n < i) :
    ((Finset.Icc i n).filter P).card = 0 := by
  rw [Finset.Icc_eq_empty (by omega)]
  rfl

theorem trial_prime_iff (i : Int) :
    trial_prime i ↔ ∀ k, 2 ≤ k → k < i → i % k ≠ 0 := by
  unfold trial_prime
  constructor
  · intro h k h2 hk
    exact h k (Finset.mem_Icc.mpr ⟨h2, by omega⟩)
  · intro h k hk
    rw [Finset.mem_Icc] at hk
    exact h k hk.1 (by omega)

theorem outer_loop_spec (incr : Int → Option Int) (B : Int)
    (H : ∀ x, 0 ≤ x → x < B → incr x = some (x + 1)) (n : Int) (hn : n < B) :
    ∀ (fuel : Nat) (i count : Int), 2 ≤ i → i ≤ n + 1 → 0 ≤ count → count + 2 ≤ i →
      2 * n + 2 ≤ fuel + i →
      outer_loop incr fuel n i count
        = some (count + (((Finset.Icc i n).filter trial_prime).card : Int)) := by
  intro fuel
  induction fuel with
  | zero => intro i count _ _ _ _ hf; omega
  | succ fuel ih =>
    intro i count hi hin hc hci hf
    by_cases hle : i ≤ n
    · obtain ⟨r, hr, hbit, hiff⟩ := inner_loop_spec incr B H i (by omega) fuel 2 1
        (le_refl 2) hi (by omega) (Or.inr rfl)
      have hprime : r = 1 ↔ trial_prime i := by
        rw [hiff, trial_prime_iff]
        simp
      rw [card_filter_Icc_peel trial_prime i n hle]
      by_cases hp : trial_prime i
      · have hr1 : r = 1 := hprime.mpr hp
        subst hr1
        simp only [outer_loop, if_pos hle, hr, if_pos hp, H count hc (by omega),
          H i (by omega) (by omega), ne_eq, one_ne_zero, not_false_eq_true, if_true]
        rw [ih (i + 1) (count + 1) (by omega) (by omega) (by omega) (by omega) (by omega)]
        congr 1
        push_cast
        omega
      · have hr0 : r = 0 := by
          rcases hbit with h | h
          · exact h
          · exact absurd (hprime.mp h) hp
        subst hr0
        simp only [outer_loop, if_pos hle, hr, if_neg hp, H i (by omega) (by omega),
          ne_eq, not_true_eq_false, if_false]
        rw [ih (i + 1) count (by omega) (by omega) hc (by omega) (by omega)]
        congr 1
        push_cast
        omega
    · simp only [outer_loop, if_neg hle]
      rw [card_filter_Icc_empty trial_prime i n (by omega)]
      simp

theorem prime_count_spec (incr : Int → Option Int) (B : Int)
    (H : ∀ x, 0 ≤ x → x < B → incr x = some (x + 1)) (n : Int) (hn : n < B)
    (fuel : Nat) (hf : 2 * n.toNat < fuel) :
    prime_count incr fuel n
      = some (((Finset.Icc 2 n).filter trial_prime).card : Int) := by
  unfold prime_count
  by_cases h2 : 2 ≤ n
  · rw [outer_loop_spec incr B H n hn fuel 2 0 (le_refl 2) (by omega) (le_refl 0) (by omega)
      (by omega)]
    simp
  · obtain ⟨f, rfl⟩ : ∃ f, fuel = f + 1 := ⟨fuel - 1, by omega⟩
    simp only [outer_loop, if_neg h2]
    rw [card_filter_Icc_empty trial_prime 2 n (by omega)]
    simp

theorem inner_loop_mono (incr : Int → Option Int) (i : Int) :
    ∀ (fuel : Nat) (j b r : Int), inner_loop incr fuel i j b = some r →
      ∀ k, inner_loop incr (fuel + k) i j b = some r := by
  intro fuel
  induction fuel with
  | zero => intro j b r h; simp [inner_loop] at h
  | succ fuel ih =>
    intro j b r h k
    rw [show fuel + 1 + k = (fuel + k) + 1 by omega]
    simp only [inner_loop] at h ⊢
    by_cases hlt : j < i
    · rw [if_pos hlt] at h ⊢
      cases hj : incr j with
      | none => rw [hj] at h; simp at h
      | some j' =>
        rw [hj] at h
        simp only at h ⊢
        exact ih _ _ _ h k
    · rw [if_neg hlt] at h ⊢
      exact h

theorem outer_loop_mono (incr : Int → Option Int) (n : Int) :
    ∀ (fuel : Nat) (i c r : Int), outer_loop incr fuel n i c = some r →
      ∀ k, outer_loop incr (fuel + k) n i c = some r := by
  intro fuel
  induction fuel with
  | zero => intro i c r h; simp [outer_loop] at h
  | succ fuel ih =>
    intro i c r h k
    rw [show fuel + 1 + k = (fuel + k) + 1 by omega]
    simp only [outer_loop] at h ⊢
    by_cases hle : i ≤ n
    · rw [if_pos hle] at h ⊢
      cases hin : inner_loop incr fuel i 2 1 with
      | none => rw [hin] at h; simp at h
      | some p =>
        rw [hin] at h
        rw [inner_loop_mono incr i fuel 2 1 p hin k]
        simp only at h ⊢
        cases hc : (if p ≠ 0 then incr c else some c) with
        | none => rw [hc] at h; simp at h
        | some c' =>
          rw [hc] at h
          simp only at h ⊢
          cases hi : incr i with
          | none => rw [hi] at h; simp at h
          | some i' =>
            rw [hi] at h
            simp only at h ⊢
            exact ih _ _ _ h k
    · rw [if_neg hle] at h ⊢
      exact h

theorem prime_count_mono (incr : Int → Option Int) (n : Int) (f f' : Nat) (r : Int)
    (hff : f ≤ f') (h : prime_count incr f n = some r) : prime_count incr f' n = some r := by
  unfold prime_count at h ⊢
  have := outer_loop_mono incr n f 2 0 r h (f' - f)
  rwa [show f + (f' - f) = f' by omega] at this

theorem prime_count_fuel_irrelevant (incr : Int → Option Int) (n : Int) (f1 f2 : Nat)
    (r1 r2 : Int) (h1 : prime_count incr f1 n = some r1)
    (h2 : prime_count incr f2 n = some r2) : r1 = r2 := by
  have a := prime_count_mono incr n f1 (max f1 f2) r1 (le_max_left _ _) h1
  have b := prime_count_mono incr n f2 (max f1 f2) r2 (le_max_right _ _) h2
  rw [a] at b
  exact Option.some.inj b

theorem wrap32_le (x : Int) : wrap32 x ≤ INT_MAX := by
  unfold wrap32 INT_MAX
  omega

theorem outer_loop_INT_MAX (fuel : Nat) :
    ∀ (i c : Int), i ≤ INT_MAX → outer_loop incr_wrap fuel INT_MAX i c = none := by
  induction fuel with
  | zero => intro i c _; rfl
  | succ fuel ih =>
    intro i c hi
    simp only [outer_loop, if_pos hi]
    cases hin : inner_loop incr_wrap fuel i 2 1 with
    | none => rfl
    | some p =>
      simp only
      cases hc : (if p ≠ 0 then incr_wrap c else some c) with
      | none => rfl
      | some c' =>
        simp only [incr_wrap]
        exact ih _ _ (wrap32_le _)

theorem prime_count_INT_MAX (fuel : Nat) : prime_count incr_wrap fuel INT_MAX = none := by
  unfold prime_count
  exact outer_loop_INT_MAX fuel 2 0 (by decide)

theorem trial_prime_iff_prime (p : Nat) (hp : 2 ≤ p) :
    trial_prime (p : Int) ↔ Nat.Prime p := by
  rw [trial_prime_iff, Nat.prime_def_lt']
  constructor
  · intro h
    refine ⟨hp, fun m hm hmp hdvd => ?_⟩
    apply h (m : Int) (by omega) (by omega)
    exact Int.emod_eq_zero_of_dvd (Int.natCast_dvd_natCast.mpr hdvd)
  · rintro ⟨_, h⟩ k hk hkp hmod
    obtain ⟨m, rfl⟩ : ∃ m : Nat, k = (m : Int) := ⟨k.toNat, by omega⟩
    apply h m (by omega) (by omega)
    exact Int.natCast_dvd_natCast.mp (Int.dvd_of_emod_eq_zero hmod)

theorem card_trial_prime_eq_primeCounting (n : Int) :
    ((Finset.Icc 2 n).filter trial_prime).card = Nat.primeCounting n.toNat := by
  rw [Nat.primeCounting, Nat.primeCounting', Nat.count_eq_card_filter_range]
  symm
  apply Finset.card_bij (fun (p : Nat) _ => (p : Int))
  · intro p hp
    simp only [Finset.mem_filter, Finset.mem_range] at hp
    have h2 := hp.2.two_le
    simp only [Finset.mem_filter, Finset.mem_Icc]
    exact ⟨⟨by omega, by omega⟩, (trial_prime_iff_prime p h2).mpr hp.2⟩
  · intro a _ b _ hab
    exact Int.ofNat.inj hab
  · intro x hx
    simp only [Finset.mem_filter, Finset.mem_Icc] at hx
    refine ⟨x.toNat, ?_, by omega⟩
    simp only [Finset.mem_filter, Finset.mem_range]
    refine ⟨by omega, ?_⟩
    rw [← trial_prime_iff_prime x.toNat (by omega)]
    rw [show ((x.toNat : Nat) : Int) = x by omega]
    exact hx.2

theorem trialFrom_iff (n : Nat) : ∀ (f d : Nat),
    trialFrom n f d = true ↔ ∀ k, d ≤ k → k < d + f → k * k ≤ n → ¬ k ∣ n := by
  intro f
  induction f with
  | zero => intro d; simp only [trialFrom, true_iff]; intro k h1 h2; omega
  | succ f ih =>
    intro d
    simp only [trialFrom]
    by_cases h1 : n < d * d
    · simp only [if_pos h1, true_iff]
      intro k hk _ hkk
      have : d * d ≤ k * k := Nat.mul_le_mul hk hk
      omega
    · rw [if_neg h1]
      by_cases h2 : n % d = 0
      · simp only [if_pos h2, Bool.false_eq_true, false_iff]
        intro h
        exact h d (le_refl d) (by omega) (by omega) (Nat.dvd_of_mod_eq_zero h2)
      · rw [if_neg h2, ih (d + 1)]
        constructor
        · intro h k hk hkf hkk
          by_cases hkd : k = d
          · subst hkd
            exact fun hd => h2 (Nat.mod_eq_zero_of_dvd hd)
          · exact h k (by omega) (by omega) hkk
        · intro h k hk hkf hkk
          exact h k (by omega) (by omega) hkk

theorem isPrimeFast_iff (n : Nat) (hn : n < 10404) : isPrimeFast n = true ↔ Nat.Prime n := by
  rw [Nat.prime_def_le_sqrt]
  unfold isPrimeFast
  rw [Bool.and_eq_true, decide_eq_true_iff, trialFrom_iff]
  constructor
  · rintro ⟨h2, h⟩
    refine ⟨h2, fun m hm hms => ?_⟩
    have hmm : m * m ≤ n := Nat.le_sqrt.mp hms
    have : m < 102 := by
      by_contra hc
      have : 102 * 102 ≤ m * m := Nat.mul_le_mul (by omega) (by omega)
      omega
    exact h m hm (by omega) hmm
  · rintro ⟨h2, h⟩
    exact ⟨h2, fun k hk _ hkk => h k hk (Nat.le_sqrt.mpr hkk)⟩

theorem count_prime_add (len : Nat) : ∀ a, a + len ≤ 10404 →
    Nat.count Nat.Prime (a + len) = Nat.count Nat.Prime a + countFast len a := by
  induction len with
  | zero => intro a _; rfl
  | succ len ih =>
    intro a ha
    rw [show a + (len + 1) = (a + 1) + len by omega, ih (a + 1) (by omega), Nat.count_succ]
    simp only [countFast]
    by_cases hp : Nat.Prime a
    · rw [if_pos hp, if_pos ((isPrimeFast_iff a (by omega)).mpr hp)]
      omega
    · have : ¬ isPrimeFast a = true := fun h => hp ((isPrimeFast_iff a (by omega)).mp h)
      rw [if_neg hp, if_neg this]
      omega

theorem countFast_chunks :
    countFast 1000 0 + countFast 1000 1000 + countFast 1000 2000 + countFast 1000 3000
      + countFast 1000 4000 + countFast 1000 5000 + countFast 1000 6000
      + countFast 1000 7000 + countFast 1000 8000 + countFast 1001 9000 = 1229 := by
  decide!

theorem primeCounting_10000 : Nat.primeCounting 10000 = 1229 := by
  rw [Nat.primeCounting, Nat.primeCounting']
  have h0 : Nat.count Nat.Prime 1000 = Nat.count Nat.Prime 0 + countFast 1000 0 :=
    count_prime_add 1000 0 (by omega)
  have h1 : Nat.count Nat.Prime 2000 = Nat.count Nat.Prime 1000 + countFast 1000 1000 :=
    count_prime_add 1000 1000 (by omega)
  have h2 : Nat.count Nat.Prime 3000 = Nat.count Nat.Prime 2000 + countFast 1000 2000 :=
    count_prime_add 1000 2000 (by omega)
  have h3 : Nat.count Nat.Prime 4000 = Nat.count Nat.Prime 3000 + countFast 1000 3000 :=
    count_prime_add 1000 3000 (by omega)
  have h4 : Nat.count Nat.Prime 5000 = Nat.count Nat.Prime 4000 + countFast 1000 4000 :=
    count_prime_add 1000 4000 (by omega)
  have h5 : Nat.count Nat.Prime 6000 = Nat.count Nat.Prime 5000 + countFast 1000 5000 :=
    count_prime_add 1000 5000 (by omega)
  have h6 : Nat.count Nat.Prime 7000 = Nat.count Nat.Prime 6000 + countFast 1000 6000 :=
    count_prime_add 1000 6000 (by omega)
  have h7 : Nat.count Nat.Prime 8000 = Nat.count Nat.Prime 7000 + countFast 1000 7000 :=
    count_prime_add 1000 7000 (by omega)
  have h8 : Nat.count Nat.Prime 9000 = Nat.count Nat.Prime 8000 + countFast 1000 8000 :=
    count_prime_add 1000 8000 (by omega)
  have h9 : Nat.count Nat.Prime 10001 = Nat.count Nat.Prime 9000 + countFast 1001 9000 :=
    count_prime_add 1001 9000 (by omega)
  have hz : Nat.count Nat.Prime 0 = 0 := Nat.count_zero _
  have hc := countFast_chunks
  show Nat.count Nat.Prime 10001 = 1229
  omega

theorem card_trial_prime_le (n : Int) :
    (((Finset.Icc 2 n).filter trial_prime).card : Int) ≤ max (n - 1) 0 := by
  have h1 : ((Finset.Icc 2 n).filter trial_prime).card ≤ (Finset.Icc 2 n).card :=
    Finset.card_filter_le _ _
  rw [Int.card_Icc] at h1
  omega

theorem card_trial_prime_mono (n1 n2 : Int) (h : n1 ≤ n2) :
    ((Finset.Icc 2 n1).filter trial_prime).card ≤ ((Finset.Icc 2 n2).filter trial_prime).card :=
  Finset.card_le_card (Finset.filter_subset_filter _ (Finset.Icc_subset_Icc_right h))

theorem incr_exact_succ (B x : Int) (_h0 : 0 ≤ x) (_h1 : x < B) :
    incr_exact x = some (x + 1) := rfl

theorem prime_count_below_two (incr : Int → Option Int) (n : Int) (hn : n < 2) (fuel : Nat)
    (hf : 0 < fuel) : prime_count incr fuel n = some 0 := by
  obtain ⟨f, rfl⟩ : ∃ f, fuel = f + 1 := ⟨fuel - 1, by omega⟩
  simp only [prime_count, outer_loop, if_neg (not_le.mpr hn)]

theorem is_prime_update_logical_eq (i j b : Int) (hb : b = 0 ∨ b = 1) :
    is_prime_update_logical i j b = is_prime_update i j b := by
  have hup := is_prime_update_bit i j b hb
  unfold is_prime_update_logical
  by_cases h : b ≠ 0 ∧ Int.tmod i j ≠ 0
  · rw [if_pos h]
    exact (hup.2.mpr ⟨by omega, h.2⟩).symm
  · rw [if_neg h]
    rcases hup.1 with h0 | h1
    · exact h0.symm
    · exact absurd ⟨by omega, (hup.2.mp h1).2⟩ h

theorem inner_loop_logical_eq (incr : Int → Option Int) (i : Int) :
    ∀ (fuel : Nat) (j b : Int), (b = 0 ∨ b = 1) →
      inner_loop_logical incr fuel i j b = inner_loop incr fuel i j b := by
  intro fuel
  induction fuel with
  | zero => intro j b _; rfl
  | succ fuel ih =>
    intro j b hb
    simp only [inner_loop_logical, inner_loop, is_prime_update_logical_eq i j b hb]
    by_cases hlt : j < i
    · rw [if_pos hlt, if_pos hlt]
      cases incr j with
      | none => rfl
      | some j' => exact ih j' _ (is_prime_update_bit i j b hb).1
    · rw [if_neg hlt, if_neg hlt]

theorem outer_loop_logical_eq (incr : Int → Option Int) (n : Int) :
    ∀ (fuel : Nat) (i c : Int),
      outer_loop_logical incr fuel n i c = outer_loop incr fuel n i c := by
  intro fuel
  induction fuel with
  | zero => intro i c; rfl
  | succ fuel ih =>
    intro i c
    simp only [outer_loop_logical, outer_loop, inner_loop_logical_eq incr i fuel 2 1 (Or.inr rfl)]
    by_cases hle : i ≤ n
    · rw [if_pos hle, if_pos hle]
      cases inner_loop incr fuel i 2 1 with
      | none => rfl
      | some p =>
        simp only
        cases (if p ≠ 0 then incr c else some c) with
        | none => rfl
        | some c' =>
          simp only
          cases incr i with
          | none => rfl
          | some i' => exact ih i' c'
    · rw [if_neg hle, if_neg hle]

theorem inner_loop_result (i : Int) (h2 : 2 ≤ i) (hi : i ≤ INT_MAX) (fuel : Nat)
    (hf : (i - 2).toNat < fuel) :
    inner_loop incr_wrap fuel i 2 1 = some (if trial_prime i then 1 else 0) := by
  obtain ⟨r, hr, hbit, hiff⟩ := inner_loop_spec incr_wrap INT_MAX wrap32_succ i hi fuel 2 1
    (le_refl 2) h2 hf (Or.inr rfl)
  rw [hr]
  have hprime : r = 1 ↔ trial_prime i := by
    rw [hiff, trial_prime_iff]
    simp
  by_cases hp : trial_prime i
  · rw [if_pos hp, hprime.mpr hp]
  · rw [if_neg hp]
    rcases hbit with h | h
    · rw [h]
    · exact absurd (hprime.mp h) hp

theorem prime_count_bound_10000 (fuel : Nat) (hf : 20000 < fuel) :
    prime_count incr_wrap fuel 10000 = some 1229 := by
  rw [prime_count_spec incr_wrap INT_MAX wrap32_succ 10000 (by decide) fuel
    (by simpa using hf), card_trial_prime_eq_primeCounting]
  have : Int.toNat 10000 = 10000 := rfl
  rw [this, primeCounting_10000]
  rfl

theorem primeCounting_eq_card_Icc (m : Nat) :
    Nat.primeCounting m = ((Finset.Icc 2 m).filter Nat.Prime).card := by
  rw [Nat.primeCounting, Nat.primeCounting', Nat.count_eq_card_filter_range]
  congr 1
  ext x
  simp only [Finset.mem_filter, Finset.mem_range, Finset.mem_Icc]
  constructor
  · rintro ⟨h1, h2⟩
    exact ⟨⟨h2.two_le, by omega⟩, h2⟩
  · rintro ⟨⟨_, h1⟩, h2⟩
    exact ⟨by omega, h2⟩

/-! ## Lemmas about the early-exit variant -/

theorem inner_loop_zero (incr : Int → Option Int) (i : Int) :
    ∀ (fuel : Nat) (j r : Int), inner_loop incr fuel i j 0 = some r → r = 0 := by
  intro fuel
  induction fuel with
  | zero => intro j r h; simp [inner_loop] at h
  | succ fuel ih =>
    intro j r h
    simp only [inner_loop] at h
    by_cases hlt : j < i
    · rw [if_pos hlt] at h
      cases hj : incr j with
      | none => rw [hj] at h; simp at h
      | some j' =>
        rw [hj] at h
        simp only at h
        have hup := is_prime_update_bit i j 0 (Or.inl rfl)
        have h0 : is_prime_update i j 0 = 0 := by
          rcases hup.1 with h0 | h1
          · exact h0
          · have := (hup.2.mp h1).1
            omega
        rw [h0] at h
        exact ih j' r h
    · rw [if_neg hlt] at h
      exact (Option.some.inj h).symm

theorem inner_loop_early_of_inner_loop (incr : Int → Option Int) (i : Int) :
    ∀ (fuel : Nat) (j b r : Int), (b = 0 ∨ b = 1) → inner_loop incr fuel i j b = some r →
      inner_loop_early incr fuel i j b = some r := by
  intro fuel
  induction fuel with
  | zero => intro j b r _ h; simp [inner_loop] at h
  | succ fuel ih =>
    intro j b r hb h
    simp only [inner_loop] at h
    simp only [inner_loop_early]
    by_cases hlt : j < i
    · rw [if_pos hlt] at h ⊢
      cases hj : incr j with
      | none => rw [hj] at h; simp at h
      | some j' =>
        rw [hj] at h
        simp only at h ⊢
        have hup := is_prime_update_bit i j b hb
        by_cases hm : Int.tmod i j = 0
        · rw [if_pos hm]
          have h0 : is_prime_update i j b = 0 := by
            rcases hup.1 with h0 | h1
            · exact h0
            · exact absurd hm (hup.2.mp h1).2
          rw [h0] at h
          rw [inner_loop_zero incr i fuel j' r h]
        · rw [if_neg hm]
          have hsame : is_prime_update i j b = b := by
            rcases hb with hb0 | hb1
            · rcases hup.1 with h0 | h1
              · rw [h0, hb0]
              · have := (hup.2.mp h1).1
                omega
            · rw [hup.2.mpr ⟨hb1, hm⟩, hb1]
          rw [hsame] at h
          exact ih j' b r hb h
    · rw [if_neg hlt] at h ⊢
      exact h

theorem outer_loop_early_of_outer_loop (incr : Int → Option Int) (n : Int) :
    ∀ (fuel : Nat) (i c r : Int), outer_loop incr fuel n i c = some r →
      outer_loop_early incr fuel n i c = some r := by
  intro fuel
  induction fuel with
  | zero => intro i c r h; simp [outer_loop] at h
  | succ fuel ih =>
    intro i c r h
    simp only [outer_loop] at h
    simp only [outer_loop_early]
    by_cases hle : i ≤ n
    · rw [if_pos hle] at h ⊢
      cases hin : inner_loop incr fuel i 2 1 with
      | none => rw [hin] at h; simp at h
      | some p =>
        rw [hin] at h
        rw [inner_loop_early_of_inner_loop incr i fuel 2 1 p (Or.inr rfl) hin]
        simp only at h ⊢
        cases hc : (if p ≠ 0 then incr c else some c) with
        | none => rw [hc] at h; simp at h
        | some c' =>
          rw [hc] at h
          simp only at h ⊢
          cases hi : incr i with
          | none => rw [hi] at h; simp at h
          | some i' =>
            rw [hi] at h
            simp only at h ⊢
            exact ih _ _ _ h
    · rw [if_neg hle] at h ⊢
      exact h

theorem inner_loop_early_mono (incr : Int → Option Int) (i : Int) :
    ∀ (fuel : Nat) (j b r : Int), inner_loop_early incr fuel i j b = some r →
      ∀ k, inner_loop_early incr (fuel + k) i j b = some r := by
  intro fuel
  induction fuel with
  | zero => intro j b r h; simp [inner_loop_early] at h
  | succ fuel ih =>
    intro j b r h k
    rw [show fuel + 1 + k = (fuel + k) + 1 by omega]
    simp only [inner_loop_early] at h ⊢
    by_cases hlt : j < i
    · rw [if_pos hlt] at h ⊢
      by_cases hm : Int.tmod i j = 0
      · rw [if_pos hm] at h ⊢
        exact h
      · rw [if_neg hm] at h ⊢
        cases hj : incr j with
        | none => rw [hj] at h; simp at h
        | some j' =>
          rw [hj] at h
          simp only at h ⊢
          exact ih _ _ _ h k
    · rw [if_neg hlt] at h ⊢
      exact h

theorem outer_loop_early_mono (incr : Int → Option Int) (n : Int) :
    ∀ (fuel : Nat) (i c r : Int), outer_loop_early incr fuel n i c = some r →
      ∀ k, outer_loop_early incr (fuel + k) n i c = some r := by
  intro fuel
  induction fuel with
  | zero => intro i c r h; simp [outer_loop_early] at h
  | succ fuel ih =>
    intro i c r h k
    rw [show fuel + 1 + k = (fuel + k) + 1 by omega]
    simp only [outer_loop_early] at h ⊢
    by_cases hle : i ≤ n
    · rw [if_pos hle] at h ⊢
      cases hin : inner_loop_early incr fuel i 2 1 with
      | none => rw [hin] at h; simp at h
      | some p =>
        rw [hin] at h
        rw [inner_loop_early_mono incr i fuel 2 1 p hin k]
        simp only at h ⊢
        cases hc : (if p ≠ 0 then incr c else some c) with
        | none => rw [hc] at h; simp at h
        | some c' =>
          rw [hc] at h
          simp only at h ⊢
          cases hi : incr i with
          | none => rw [hi] at h; simp at h
          | some i' =>
            rw [hi] at h
            simp only at h ⊢
            exact ih _ _ _ h k
    · rw [if_neg hle] at h ⊢
      exact h

theorem prime_count_early_fuel_irrelevant (incr : Int → Option Int) (n : Int) (f1 f2 : Nat)
    (r1 r2 : Int) (h1 : prime_count_early incr f1 n = some r1)
    (h2 : prime_count_early incr f2 n = some r2) : r1 = r2 := by
  unfold prime_count_early at h1 h2
  have a := outer_loop_early_mono incr n f1 2 0 r1 h1 f2
  have b := outer_loop_early_mono incr n f2 2 0 r2 h2 f1
  rw [Nat.add_comm f2 f1, a] at b
  exact Option.some.inj b

theorem outer_loop_no_exit (n : Int) (hn : INT_MAX ≤ n) (fuel : Nat) :
    ∀ (i c : Int), i ≤ INT_MAX → outer_loop incr_wrap fuel n i c = none := by
  induction fuel with
  | zero => intro i c _; rfl
  | succ fuel ih =>
    intro i c hi
    simp only [outer_loop, if_pos (le_trans hi hn)]
    cases hin : inner_loop incr_wrap fuel i 2 1 with
    | none => rfl
    | some p =>
      simp only
      cases hc : (if p ≠ 0 then incr_wrap c else some c) with
      | none => rfl
      | some c' =>
        simp only [incr_wrap]
        exact ih _ _ (wrap32_le _)

theorem outer_loop_early_no_exit (n : Int) (hn : INT_MAX ≤ n) (fuel : Nat) :
    ∀ (i c : Int), i ≤ INT_MAX → outer_loop_early incr_wrap fuel n i c = none := by
  induction fuel with
  | zero => intro i c _; rfl
  | succ fuel ih =>
    intro i c hi
    simp only [outer_loop_early, if_pos (le_trans hi hn)]
    cases hin : inner_loop_early incr_wrap fuel i 2 1 with
    | none => rfl
    | some p =>
      simp only
      cases hc : (if p ≠ 0 then incr_wrap c else some c) with
      | none => rfl
      | some c' =>
        simp only [incr_wrap]
        exact ih _ _ (wrap32_le _)

theorem prime_count_early_iff (n r : Int) :
    (∃ fuel, prime_count incr_wrap fuel n = some r) ↔
      (∃ fuel, prime_count_early incr_wrap fuel n = some r) := by
  constructor
  · rintro ⟨fuel, h⟩
    exact ⟨fuel, outer_loop_early_of_outer_loop incr_wrap n fuel 2 0 r h⟩
  · rintro ⟨fuel, h⟩
    by_cases hn : n < INT_MAX
    · have hs := prime_count_spec incr_wrap INT_MAX wrap32_succ n hn (2 * n.toNat + 1)
        (by omega)
      have he := outer_loop_early_of_outer_loop incr_wrap n _ 2 0 _ hs
      have heq := prime_count_early_fuel_irrelevant incr_wrap n _ _ _ _ h he
      exact ⟨2 * n.toNat + 1, by rw [heq]; exact hs⟩
    · have hnone := outer_loop_early_no_exit n (not_lt.mp hn) fuel 2 0 (by decide)
      unfold prime_count_early at h
      rw [hnone] at h
      exact Option.noConfusion h

/-! ## Lemmas about the instrumented program -/

theorem inner_loop_trace_result (incr : Int → Option Int) (i : Int) :
    ∀ (fuel : Nat) (j b : Int), (inner_loop_trace incr fuel i j b).2 = inner_loop incr fuel i j b := by
  intro fuel
  induction fuel with
  | zero => intro j b; rfl
  | succ fuel ih =>
    intro j b
    simp only [inner_loop_trace, inner_loop]
    by_cases hlt : j < i
    · rw [if_pos hlt, if_pos hlt]
      cases incr j with
      | none => rfl
      | some j' => exact ih j' _
    · rw [if_neg hlt, if_neg hlt]

theorem outer_loop_trace_result (incr : Int → Option Int) (n : Int) :
    ∀ (fuel : Nat) (i c : Int), (outer_loop_trace incr fuel n i c).2 = outer_loop incr fuel n i c := by
  intro fuel
  induction fuel with
  | zero => intro i c; rfl
  | succ fuel ih =>
    intro i c
    simp only [outer_loop_trace, outer_loop, inner_loop_trace_result]
    by_cases hle : i ≤ n
    · rw [if_pos hle, if_pos hle]
      cases inner_loop incr fuel i 2 1 with
      | none => rfl
      | some p =>
        simp only
        cases (if p ≠ 0 then incr c else some c) with
        | none => rfl
        | some c' =>
          simp only
          cases incr i with
          | none => rfl
          | some i' => exact ih i' c'
    · rw [if_neg hle, if_neg hle]

theorem inner_loop_trace_bounded (incr : Int → Option Int) (B : Int)
    (H : ∀ x, 0 ≤ x → x < B → incr x = some (x + 1)) (n i : Int) (hin : i ≤ n) (hn : n < B) :
    ∀ (fuel : Nat) (j b : Int), 2 ≤ j → j ≤ i → (b = 0 ∨ b = 1) →
      ∀ e ∈ (inner_loop_trace incr fuel i j b).1, Event.bounded n e := by
  intro fuel
  induction fuel with
  | zero => intro j b _ _ _ e he; simp [inner_loop_trace] at he
  | succ fuel ih =>
    intro j b hj hji hb e he
    simp only [inner_loop_trace] at he
    by_cases hlt : j < i
    · rw [if_pos hlt, H j (by omega) (by omega)] at he
      simp only [List.mem_cons] at he
      rcases he with rfl | rfl | he
      · exact ⟨hj, hji, hin, hb⟩
      · exact ⟨hj, hlt, hin⟩
      · exact ih (j + 1) _ (by omega) (by omega) (is_prime_update_bit i j b hb).1 e he
    · rw [if_neg hlt] at he
      simp only [List.mem_singleton] at he
      subst he
      exact ⟨hj, hji, hin, hb⟩

theorem inner_loop_trace_count (incr : Int → Option Int) (B : Int)
    (H : ∀ x, 0 ≤ x → x < B → incr x = some (x + 1)) (i : Int) (hi : i ≤ B) :
    ∀ (fuel : Nat) (j b : Int), 2 ≤ j → j ≤ i → (i - j).toNat < fuel →
      modulo_count (inner_loop_trace incr fuel i j b).1 = (i - j).toNat := by
  intro fuel
  induction fuel with
  | zero => intro j b _ _ hf; omega
  | succ fuel ih =>
    intro j b hj hji hf
    simp only [inner_loop_trace]
    by_cases hlt : j < i
    · rw [if_pos hlt, H j (by omega) (by omega)]
      have := ih (j + 1) (is_prime_update i j b) (by omega) (by omega) (by omega)
      simp only [modulo_count] at this ⊢
      simp only [List.countP_cons, Event.is_modulo, this]
      simp
      omega
    · rw [if_neg hlt]
      simp only [modulo_count, List.countP_cons, Event.is_modulo, List.countP_nil]
      simp
      omega

theorem outer_loop_trace_bounded (incr : Int → Option Int) (B : Int)
    (H : ∀ x, 0 ≤ x → x < B → incr x = some (x + 1)) (n : Int) (hn : n < B) :
    ∀ (fuel : Nat) (i c : Int), 2 ≤ i → i ≤ max (n + 1) 2 → 0 ≤ c → c + 2 ≤ i →
      ∀ e ∈ (outer_loop_trace incr fuel n i c).1, Event.bounded n e := by
  intro fuel
  induction fuel with
  | zero => intro i c _ _ _ _ e he; simp [outer_loop_trace] at he
  | succ fuel ih =>
    intro i c hi him hc hci e he
    have hout : Event.bounded n (Event.outer_test i c) := ⟨hi, him, hc, hci⟩
    simp only [outer_loop_trace] at he
    by_cases hle : i ≤ n
    · have hinner := inner_loop_trace_bounded incr B H n i hle hn fuel 2 1 (le_refl 2) hi
        (Or.inr rfl)
      rw [if_pos hle, H i (by omega) (by omega), H c hc (by omega)] at he
      cases hr : (inner_loop_trace incr fuel i 2 1).2 with
      | none =>
        rw [hr] at he
        simp only [List.mem_cons] at he
        rcases he with rfl | he
        · exact hout
        · exact hinner e he
      | some p =>
        rw [hr] at he
        simp only at he
        by_cases hp : p ≠ 0
        · rw [if_pos hp] at he
          simp only [List.mem_cons, List.mem_append] at he
          rcases he with rfl | he | he
          · exact hout
          · exact hinner e he
          · exact ih (i + 1) (c + 1) (by omega) (by omega) (by omega) (by omega) e he
        · rw [if_neg hp] at he
          simp only [List.mem_cons, List.mem_append] at he
          rcases he with rfl | he | he
          · exact hout
          · exact hinner e he
          · exact ih (i + 1) c (by omega) (by omega) hc (by omega) e he
    · rw [if_neg hle] at he
      simp only [List.mem_singleton] at he
      subst he
      exact hout

theorem modulo_count_cons_outer (i c : Int) (l : List Event) :
    modulo_count (Event.outer_test i c :: l) = modulo_count l := by
  simp [modulo_count, List.countP_cons, Event.is_modulo]

theorem modulo_count_append (l1 l2 : List Event) :
    modulo_count (l1 ++ l2) = modulo_count l1 + modulo_count l2 := by
  simp [modulo_count, List.countP_append]

theorem outer_loop_trace_count (incr : Int → Option Int) (B : Int)
    (H : ∀ x, 0 ≤ x → x < B → incr x = some (x + 1)) (n : Int) (hn : n < B) :
    ∀ (fuel : Nat) (i c : Int), 2 ≤ i → i ≤ n + 1 → 0 ≤ c → c + 2 ≤ i →
      2 * n + 2 ≤ fuel + i →
      2 * (modulo_count (outer_loop_trace incr fuel n i c).1 : Int) + (i - 2) * (i - 3)
        = (n - 1) * (n - 2) := by
  intro fuel
  induction fuel with
  | zero => intro i c _ _ _ _ hf; omega
  | succ fuel ih =>
    intro i c hi hin hc hci hf
    simp only [outer_loop_trace]
    by_cases hle : i ≤ n
    · obtain ⟨r, hr, _, _⟩ := inner_loop_spec incr B H i (by omega) fuel 2 1
        (le_refl 2) hi (by omega) (Or.inr rfl)
      rw [← inner_loop_trace_result] at hr
      have hcnt := inner_loop_trace_count incr B H i (by omega) fuel 2 1 (le_refl 2) hi (by omega)
      have hcast : (((i - 2).toNat : Nat) : Int) = i - 2 := by omega
      rw [if_pos hle, H i (by omega) (by omega), H c hc (by omega), hr]
      simp only
      by_cases hp : r ≠ 0
      · rw [if_pos hp]
        simp only [modulo_count_cons_outer, modulo_count_append, hcnt]
        have := ih (i + 1) (c + 1) (by omega) (by omega) (by omega) (by omega) (by omega)
        push_cast
        linear_combination this + 2 * hcast
      · rw [if_neg hp]
        simp only [modulo_count_cons_outer, modulo_count_append, hcnt]
        have := ih (i + 1) c (by omega) (by omega) (by omega) (by omega) (by omega)
        push_cast
        linear_combination this + 2 * hcast
    · rw [if_neg hle]
      have hi' : i = n + 1 := by omega
      subst hi'
      simp only [modulo_count_cons_outer]
      simp only [modulo_count, List.countP_nil]
      push_cast
      ring

theorem inner_loop_trace_safe (i : Int) (hi : i ≤ INT_MAX) :
    ∀ (fuel : Nat) (j b : Int), 2 ≤ j →
      ∀ i' j', Event.modulo i' j' ∈ (inner_loop_trace incr_wrap fuel i j b).1 →
        2 ≤ j' ∧ j' < i' := by
  intro fuel
  induction fuel with
  | zero => intro j b _ i' j' he; simp [inner_loop_trace] at he
  | succ fuel ih =>
    intro j b hj i' j' he
    simp only [inner_loop_trace] at he
    by_cases hlt : j < i
    · rw [if_pos hlt, wrap32_succ j (by omega) (by omega)] at he
      simp only [List.mem_cons, Event.modulo.injEq] at he
      rcases he with he | ⟨rfl, rfl⟩ | he
      · exact Event.noConfusion he
      · exact ⟨hj, hlt⟩
      · exact ih (j + 1) _ (by omega) i' j' he
    · rw [if_neg hlt] at he
      simp only [List.mem_singleton] at he
      exact Event.noConfusion he

theorem outer_loop_trace_safe (n : Int) :
    ∀ (fuel : Nat) (i c : Int), i ≤ INT_MAX →
      ∀ i' j', Event.modulo i' j' ∈ (outer_loop_trace incr_wrap fuel n i c).1 →
        2 ≤ j' ∧ j' < i' := by
  intro fuel
  induction fuel with
  | zero => intro i c _ i' j' he; simp [outer_loop_trace] at he
  | succ fuel ih =>
    intro i c hi i' j' he
    have hinner := inner_loop_trace_safe i hi fuel 2 1 (le_refl 2) i' j'
    simp only [outer_loop_trace] at he
    by_cases hle : i ≤ n
    · rw [if_pos hle] at he
      cases hr : (inner_loop_trace incr_wrap fuel i 2 1).2 with
      | none =>
        rw [hr] at he
        simp only [List.mem_cons] at he
        rcases he with he | he
        · exact Event.noConfusion he
        · exact hinner he
      | some p =>
        rw [hr] at he
        simp only at he
        cases hc : (if p ≠ 0 then incr_wrap c else some c) with
        | none =>
          rw [hc] at he
          simp only [List.mem_cons] at he
          rcases he with he | he
          · exact Event.noConfusion he
          · exact hinner he
        | some c' =>
          rw [hc] at he
          simp only [incr_wrap, List.mem_cons, List.mem_append] at he
          rcases he with he | he | he
          · exact Event.noConfusion he
          · exact hinner he
          · exact ih _ _ (wrap32_le _) i' j' he
    · rw [if_neg hle] at he
      simp only [List.mem_singleton] at he
      exact Event.noConfusion he

theorem inner_loop_trace_congr (incr1 incr2 : Int → Option Int) (B : Int)
    (H1 : ∀ x, 0 ≤ x → x < B → incr1 x = some (x + 1))
    (H2 : ∀ x, 0 ≤ x → x < B → incr2 x = some (x + 1)) (i : Int) (hi : i ≤ B) :
    ∀ (fuel : Nat) (j b : Int), 2 ≤ j →
      inner_loop_trace incr1 fuel i j b = inner_loop_trace incr2 fuel i j b := by
  intro fuel
  induction fuel with
  | zero => intro j b _; rfl
  | succ fuel ih =>
    intro j b hj
    simp only [inner_loop_trace]
    by_cases hlt : j < i
    · rw [if_pos hlt, if_pos hlt, H1 j (by omega) (by omega), H2 j (by omega) (by omega)]
      simp only [ih (j + 1) _ (by omega)]
    · rw [if_neg hlt, if_neg hlt]

theorem outer_loop_trace_congr (incr1 incr2 : Int → Option Int) (B : Int)
    (H1 : ∀ x, 0 ≤ x → x < B → incr1 x = some (x + 1))
    (H2 : ∀ x, 0 ≤ x → x < B → incr2 x = some (x + 1)) (n : Int) (hn : n < B) :
    ∀ (fuel : Nat) (i c : Int), 2 ≤ i → 0 ≤ c → c + 2 ≤ i →
      outer_loop_trace incr1 fuel n i c = outer_loop_trace incr2 fuel n i c := by
  intro fuel
  induction fuel with
  | zero => intro i c _ _ _; rfl
  | succ fuel ih =>
    intro i c hi hc hci
    simp only [outer_loop_trace]
    by_cases hle : i ≤ n
    · rw [if_pos hle, if_pos hle, H1 i (by omega) (by omega), H2 i (by omega) (by omega),
        H1 c hc (by omega), H2 c hc (by omega),
        inner_loop_trace_congr incr1 incr2 B H1 H2 i (by omega) fuel 2 1 (le_refl 2)]
      cases (inner_loop_trace incr2 fuel i 2 1).2 with
      | none => rfl
      | some p =>
        simp only
        by_cases hp : p ≠ 0
        · simp only [if_pos hp, ih (i + 1) (c + 1) (by omega) (by omega) (by omega)]
        · simp only [if_neg hp, ih (i + 1) c (by omega) hc (by omega)]
    · rw [if_neg hle, if_neg hle]

theorem lt_INT_MAX_of_lt (n : Int) (hn : n < 2 ^ 31 - 1) : n < INT_MAX := by
  unfold INT_MAX
  norm_num at hn
  exact hn

theorem incr_checked_succ (x : Int) (_h0 : 0 ≤ x) (h1 : x < INT_MAX) :
    incr_checked x = some (x + 1) := by
  unfold incr_checked
  rw [if_pos h1]

theorem prime_count_trace_result (incr : Int → Option Int) (fuel : Nat) (n : Int) :
    (prime_count_trace incr fuel n).2 = prime_count incr fuel n :=
  outer_loop_trace_result incr n fuel 2 0

theorem prime_count_trace_bounded (incr : Int → Option Int) (B : Int)
    (H : ∀ x, 0 ≤ x → x < B → incr x = some (x + 1)) (n : Int) (hn : n < B) (fuel : Nat) :
    ∀ e ∈ (prime_count_trace incr fuel n).1, Event.bounded n e :=
  outer_loop_trace_bounded incr B H n hn fuel 2 0 (le_refl 2) (le_max_right _ _) (le_refl 0)
    (by omega)

theorem prime_count_trace_congr (incr1 incr2 : Int → Option Int) (B : Int)
    (H1 : ∀ x, 0 ≤ x → x < B → incr1 x = some (x + 1))
    (H2 : ∀ x, 0 ≤ x → x < B → incr2 x = some (x + 1)) (n : Int) (hn : n < B) (fuel : Nat) :
    prime_count_trace incr1 fuel n = prime_count_trace incr2 fuel n :=
  outer_loop_trace_congr incr1 incr2 B H1 H2 n hn fuel 2 0 (le_refl 2) (le_refl 0) (by omega)

theorem prime_count_trace_safe (n : Int) (fuel : Nat) (i j : Int)
    (h : Event.modulo i j ∈ (prime_count_trace incr_wrap fuel n).1) : 2 ≤ j ∧ j < i :=
  outer_loop_trace_safe n fuel 2 0 (by decide) i j h

theorem prime_count_trace_count (incr : Int → Option Int) (B : Int)
    (H : ∀ x, 0 ≤ x → x < B → incr x = some (x + 1)) (n : Int) (hn : n < B) (fuel : Nat)
    (hf : 2 * n.toNat < fuel) :
    (2 ≤ n → (modulo_count (prime_count_trace incr fuel n).1 : Int) = (n - 1) * (n - 2) / 2) ∧
      (n < 2 → modulo_count (prime_count_trace incr fuel n).1 = 0) := by
  constructor
  · intro h2
    have h := outer_loop_trace_count incr B H n hn fuel 2 0 (le_refl 2) (by omega) (le_refl 0)
      (by omega) (by omega)
    have hz : ((2 : Int) - 2) * (2 - 3) = 0 := by norm_num
    rw [hz, add_zero] at h
    unfold prime_count_trace
    rw [← h]
    omega
  · intro h2
    obtain ⟨f, rfl⟩ : ∃ f, fuel = f + 1 := ⟨fuel - 1, by omega⟩
    simp only [prime_count_trace, outer_loop_trace, if_neg (not_le.mpr h2),
      modulo_count_cons_outer]
    rfl

theorem Event.bounded_values (n : Int) (hn : n < INT_MAX) (e : Event) (h : Event.bounded n e) :
    ∀ v ∈ e.values, INT_MIN ≤ v ∧ v ≤ INT_MAX := by
  unfold INT_MAX at hn ⊢
  unfold INT_MIN
  intro v hv
  cases e with
  | outer_test i c =>
    obtain ⟨h1, h2, h3, h4⟩ := h
    have h2' : i ≤ n + 1 ∨ i ≤ 2 := le_max_iff.mp h2
    simp only [Event.values, List.mem_cons, List.mem_singleton, List.mem_nil_iff,
      or_false] at hv
    rcases hv with rfl | rfl <;> omega
  | inner_test i j p =>
    obtain ⟨h1, h2, h3, h4⟩ := h
    simp only [Event.values, List.mem_cons, List.mem_singleton, List.mem_nil_iff,
      or_false] at hv
    rcases hv with rfl | rfl | rfl <;> omega
  | modulo i j =>
    obtain ⟨h1, h2, h3⟩ := h
    simp only [Event.values, List.mem_cons, List.mem_singleton, List.mem_nil_iff,
      or_false] at hv
    rcases hv with rfl | rfl | rfl
    · omega
    · omega
    · rw [Int.tmod_eq_emod (by omega) (by omega)]
      have a := Int.emod_nonneg i (show j ≠ 0 by omega)
      have b := Int.emod_lt_of_pos i (show 0 < j by omega)
      omega

theorem primeCounting_succ (m : Nat) :
    Nat.primeCounting (m + 1) = Nat.primeCounting m + (if Nat.Prime (m + 1) then 1 else 0) := by
  rw [Nat.primeCounting, Nat.primeCounting', Nat.primeCounting, Nat.primeCounting',
    Nat.count_succ]

theorem outer_loop_trace_head (incr : Int → Option Int) (fuel : Nat) (n i c : Int) :
    ∃ post, (outer_loop_trace incr (fuel + 1) n i c).1 = Event.outer_test i c :: post := by
  simp only [outer_loop_trace]
  by_cases hle : i ≤ n
  · rw [if_pos hle]
    cases (inner_loop_trace incr fuel i 2 1).2 with
    | none => exact ⟨_, rfl⟩
    | some p =>
      simp only
      cases (if p ≠ 0 then incr c else some c) with
      | none => exact ⟨_, rfl⟩
      | some c' =>
        simp only
        cases incr i with
        | none => exact ⟨_, rfl⟩
        | some i' => exact ⟨_, rfl⟩
  · rw [if_neg hle]
    exact ⟨_, rfl⟩

theorem wrap32_id (x : Int) (h0 : INT_MIN ≤ x) (h1 : x ≤ INT_MAX) : wrap32 x = x := by
  unfold wrap32
  unfold INT_MIN at h0
  unfold INT_MAX at h1
  omega

theorem outer_loop_trace_low_step (fuel : Nat) (i c : Int) (hlo : INT_MIN ≤ i) (hi : i ≤ 1) :
    (outer_loop_trace incr_wrap (fuel + 2) INT_MAX i c).1
      = Event.outer_test i c :: Event.inner_test i 2 1 ::
          (outer_loop_trace incr_wrap (fuel + 1) INT_MAX (i + 1) (wrap32 (c + 1))).1 := by
  have hle : i ≤ INT_MAX := by unfold INT_MAX; omega
  have hnlt : ¬ (2 : Int) < i := by omega
  have hw : wrap32 (i + 1) = i + 1 :=
    wrap32_id (i + 1) (by omega) (by unfold INT_MAX; omega)
  have hin : inner_loop_trace incr_wrap (fuel + 1) i 2 1 = ([Event.inner_test i 2 1], some 1) := by
    simp only [inner_loop_trace, if_neg hnlt]
  rw [outer_loop_trace]
  simp only [if_pos hle, hin, incr_wrap, hw, ne_eq, one_ne_zero, not_false_eq_true, if_true,
    List.singleton_append]

theorem outer_loop_trace_count_wraps :
    ∀ (m fuel : Nat) (i c : Int), 0 ≤ c → c + m = INT_MAX → INT_MIN ≤ i → i + m ≤ 1 →
      m + 3 ≤ fuel →
      ∃ pre post, (outer_loop_trace incr_wrap fuel INT_MAX i c).1
        = pre ++ Event.outer_test (i + m) INT_MAX :: Event.inner_test (i + m) 2 1 ::
            Event.outer_test (i + m + 1) INT_MIN :: post := by
  intro m
  induction m with
  | zero =>
    intro fuel i c _ hc hlo hi hf
    obtain ⟨f, rfl⟩ : ∃ f, fuel = f + 2 := ⟨fuel - 2, by omega⟩
    have hc' : c = INT_MAX := by simpa using hc
    subst hc'
    obtain ⟨post, hpost⟩ := outer_loop_trace_head incr_wrap f INT_MAX (i + 1)
      (wrap32 (INT_MAX + 1))
    have hw : wrap32 (INT_MAX + 1) = INT_MIN := by decide
    rw [hw] at hpost
    refine ⟨[], post, ?_⟩
    rw [outer_loop_trace_low_step f i INT_MAX hlo (by simpa using hi), hw, hpost]
    simp
  | succ m ih =>
    intro fuel i c hc0 hc hlo hi hf
    obtain ⟨f, rfl⟩ : ∃ f, fuel = f + 2 := ⟨fuel - 2, by omega⟩
    push_cast at hc hi
    have hw : wrap32 (c + 1) = c + 1 := by
      unfold wrap32
      unfold INT_MAX at hc
      omega
    obtain ⟨pre, post, h⟩ := ih (f + 1) (i + 1) (c + 1) (by omega) (by omega) (by omega)
      (by omega) (by omega)
    refine ⟨Event.outer_test i c :: Event.inner_test i 2 1 :: pre, post, ?_⟩
    rw [outer_loop_trace_low_step f i c hlo (by omega), hw, h]
    have e1 : i + 1 + (m : Int) = i + ((m + 1 : Nat) : Int) := by push_cast; ring
    rw [e1]
    simp

theorem outer_loop_trace_high_step (fuel : Nat) (i c : Int) (h2 : 2 ≤ i) (hi : i ≤ INT_MAX)
    (hc : 0 ≤ c) (hci : c + 2 ≤ i) (hf : (i - 2).toNat < fuel) :
    ∃ c' pre, 0 ≤ c' ∧ c' ≤ c + 1 ∧
      (outer_loop_trace incr_wrap (fuel + 1) INT_MAX i c).1
        = pre ++ (outer_loop_trace incr_wrap fuel INT_MAX (wrap32 (i + 1)) c').1 := by
  obtain ⟨r, hr, _, _⟩ := inner_loop_spec incr_wrap INT_MAX wrap32_succ i hi fuel 2 1
    (le_refl 2) h2 hf (Or.inr rfl)
  rw [← inner_loop_trace_result] at hr
  have hcw : incr_wrap c = some (c + 1) := wrap32_succ c hc (by omega)
  rw [outer_loop_trace]
  simp only [if_pos hi, hr, hcw]
  by_cases hp : r ≠ 0
  · refine ⟨c + 1, Event.outer_test i c :: (inner_loop_trace incr_wrap fuel i 2 1).1,
      by omega, le_refl _, ?_⟩
    simp only [if_pos hp, incr_wrap, List.cons_append]
  · refine ⟨c, Event.outer_test i c :: (inner_loop_trace incr_wrap fuel i 2 1).1,
      hc, by omega, ?_⟩
    simp only [if_neg hp, incr_wrap, List.cons_append]

theorem outer_loop_trace_reaches_wrap :
    ∀ (k fuel : Nat) (i c : Int), i + k = INT_MAX → 2 ≤ i → 0 ≤ c → c + 2 ≤ i →
      INT_MAX ≤ fuel →
      ∃ c1 pre, 0 ≤ c1 ∧ c1 < INT_MAX ∧
        (outer_loop_trace incr_wrap (fuel + k + 1) INT_MAX i c).1
          = pre ++ (outer_loop_trace incr_wrap fuel INT_MAX INT_MIN c1).1 := by
  intro k
  induction k with
  | zero =>
    intro fuel i c hik h2 hc hci hf
    have hi : i = INT_MAX := by simpa using hik
    subst hi
    obtain ⟨c', pre, h0, h1, h⟩ := outer_loop_trace_high_step fuel INT_MAX c h2 (le_refl _) hc hci
      (by unfold INT_MAX at hf ⊢; omega)
    have hw : wrap32 (INT_MAX + 1) = INT_MIN := by decide
    rw [hw] at h
    exact ⟨c', pre, h0, by omega, h⟩
  | succ k ih =>
    intro fuel i c hik h2 hc hci hf
    push_cast at hik
    have hi : i < INT_MAX := by omega
    obtain ⟨c', pre, h0, h1, h⟩ := outer_loop_trace_high_step (fuel + k + 1) i c h2 (le_of_lt hi)
      hc hci (by unfold INT_MAX at hf hi; omega)
    have hw : wrap32 (i + 1) = i + 1 :=
      wrap32_id (i + 1) (by unfold INT_MIN; omega) (by omega)
    rw [hw] at h
    obtain ⟨c1, pre1, hc1, hc1', h1'⟩ := ih fuel (i + 1) c' (by omega) (by omega) h0 (by omega) hf
    refine ⟨c1, pre ++ pre1, hc1, hc1', ?_⟩
    rw [show fuel + (k + 1) + 1 = (fuel + k + 1) + 1 by omega, h, h1', List.append_assoc]

theorem prime_count_trace_count_wraps :
    ∃ (fuel : Nat) (i : Int) (pre post : List Event),
      (prime_count_trace incr_wrap fuel INT_MAX).1
        = pre ++ Event.outer_test i INT_MAX :: Event.inner_test i 2 1 ::
            Event.outer_test (i + 1) INT_MIN :: post := by
  obtain ⟨c1, pre, hc0, hc1, h⟩ := outer_loop_trace_reaches_wrap 2147483645 2147483650 2 0
    (by decide) (le_refl 2) (le_refl 0) (by decide) (by decide)
  obtain ⟨pre2, post, h2⟩ := outer_loop_trace_count_wraps (INT_MAX - c1).toNat 2147483650
    INT_MIN c1 hc0 (by omega) (le_refl _)
    (by unfold INT_MIN; unfold INT_MAX at hc1 ⊢; omega)
    (by unfold INT_MAX at hc1 ⊢; omega)
  refine ⟨2147483650 + 2147483645 + 1, INT_MIN + ((INT_MAX - c1).toNat : Int), pre ++ pre2,
    post, ?_⟩
  unfold prime_count_trace
  rw [h, h2, List.append_assoc]

/-! ## Lemmas about the program on a frame -/

theorem inner_loop_store_spec (incr : Int → Option Int) :
    ∀ (fuel : Nat) (s : Frame),
      (inner_loop_store incr fuel s).map (fun t => (t.is_prime, t.i, t.count))
        = (inner_loop incr fuel s.i s.j s.is_prime).map (fun p => (p, s.i, s.count)) := by
  intro fuel
  induction fuel with
  | zero => intro s; rfl
  | succ fuel ih =>
    intro s
    simp only [inner_loop_store, inner_loop]
    by_cases hlt : s.j < s.i
    · rw [if_pos hlt, if_pos hlt]
      cases incr s.j with
      | none => rfl
      | some j' => exact ih _
    · rw [if_neg hlt, if_neg hlt]
      rfl

theorem outer_loop_store_spec (incr : Int → Option Int) (n : Int) :
    ∀ (fuel : Nat) (s : Frame),
      (outer_loop_store incr fuel n s).map (fun t => t.count)
        = outer_loop incr fuel n s.i s.count := by
  intro fuel
  induction fuel with
  | zero => intro s; rfl
  | succ fuel ih =>
    intro s
    simp only [outer_loop_store, outer_loop]
    by_cases hle : s.i ≤ n
    · rw [if_pos hle, if_pos hle]
      have hin := inner_loop_store_spec incr fuel (Frame.mk s.count s.i 1 2)
      simp only at hin
      cases h1 : inner_loop_store incr fuel (Frame.mk s.count s.i 1 2) with
      | none =>
        rw [h1] at hin
        cases h2 : inner_loop incr fuel s.i 2 1 with
        | none => rfl
        | some p => rw [h2] at hin; simp at hin
      | some s1 =>
        rw [h1] at hin
        cases h2 : inner_loop incr fuel s.i 2 1 with
        | none => rw [h2] at hin; simp at hin
        | some p =>
          rw [h2] at hin
          simp only [Option.map_some', Option.some.injEq, Prod.mk.injEq] at hin
          obtain ⟨hp, hi, hc⟩ := hin
          simp only [hp, hi, hc]
          cases (if p ≠ 0 then incr s.count else some s.count) with
          | none => rfl
          | some c' =>
            simp only
            cases incr s.i with
            | none => rfl
            | some i' => exact ih _
    · rw [if_neg hle, if_neg hle]
      rfl

theorem prime_count_store_result (incr : Int → Option Int) (fuel : Nat) (n : Int) (s : Frame) :
    (prime_count_store incr fuel n s).map Prod.fst = prime_count incr fuel n := by
  unfold prime_count_store prime_count
  have h := outer_loop_store_spec incr n fuel (Frame.mk 0 2 s.is_prime s.j)
  simp only at h
  rw [← h]
  cases outer_loop_store incr fuel n (Frame.mk 0 2 s.is_prime s.j) with
  | none => rfl
  | some s1 => rfl

theorem run_calls_results (fuel : Nat) :
    ∀ (args : List Int), (∀ n ∈ args, n < INT_MAX ∧ 2 * n.toNat < fuel) → ∀ (s : Frame),
      ∃ s', run_calls incr_wrap fuel args s
        = some (args.map (fun n => ((Nat.primeCounting n.toNat : Nat) : Int)), s') := by
  intro args
  induction args with
  | nil => intro _ s; exact ⟨s, rfl⟩
  | cons n rest ih =>
    intro h s
    have hn := h n (List.mem_cons_self _ _)
    have hres := prime_count_store_result incr_wrap fuel n s
    rw [prime_count_spec incr_wrap INT_MAX wrap32_succ n hn.1 fuel hn.2,
      card_trial_prime_eq_primeCounting] at hres
    cases h1 : prime_count_store incr_wrap fuel n s with
    | none => rw [h1] at hres; simp at hres
    | some rs =>
      obtain ⟨r, s1⟩ := rs
      rw [h1] at hres
      simp only [Option.map_some', Option.some.injEq] at hres
      obtain ⟨s2, h2⟩ := ih (fun m hm => h m (List.mem_cons_of_mem _ hm)) s1
      refine ⟨s2, ?_⟩
      simp only [run_calls, h1, h2, hres, List.map_cons]

/-! ## The claims -/

/-- C1: for every `n < 2^31 - 1`, `prime_count` on 32-bit integers returns,
given more than `2 * n` units of fuel, the number of primes `p` with
`2 ≤ p ≤ n`, that is the prime-counting function at `n` (0 when `n < 2`). -/
theorem prime_count_eq_primeCounting (n : Int) (hn : n < 2 ^ 31 - 1) (fuel : Nat)
    (hf : 2 * n.toNat < fuel) :
    prime_count incr_wrap fuel n = some ((Nat.primeCounting n.toNat : Nat) : Int) ∧
      Nat.primeCounting n.toNat = ((Finset.Icc 2 n.toNat).filter Nat.Prime).card := by
  refine ⟨?_, primeCounting_eq_card_Icc _⟩
  have hB : n < INT_MAX := by
    unfold INT_MAX
    norm_num at hn
    exact hn
  rw [prime_count_spec incr_wrap INT_MAX wrap32_succ n hB fuel hf,
    card_trial_prime_eq_primeCounting]

/-- Witness of C1 at `n = 10` with 21 units of fuel. -/
theorem prime_count_eq_primeCounting_witness :
    (10 : Int) < 2 ^ 31 - 1 ∧ 2 * (10 : Int).toNat < 21 ∧
      (prime_count incr_wrap 21 10 = some ((Nat.primeCounting (10 : Int).toNat : Nat) : Int) ∧
        Nat.primeCounting (10 : Int).toNat
          = ((Finset.Icc 2 (10 : Int).toNat).filter Nat.Prime).card) :=
  ⟨by norm_num, by decide, prime_count_eq_primeCounting 10 (by norm_num) 21 (by decide)⟩

/-- C2, as stated, fails at `n = 2^31 - 1`: the test `i <= n` is then true of
every 32-bit `i`, so no amount of fuel makes `prime_count` return the count. -/
theorem trial_count_not_returned_at_max :
    ¬ ∃ fuel : Nat, prime_count incr_wrap fuel 2147483647
      = some (((Finset.Icc (2 : Int) 2147483647).filter
          (fun i => ∀ j ∈ Finset.Icc (2 : Int) (i - 1), i % j ≠ 0)).card : Int) := by
  rintro ⟨fuel, h⟩
  have hnone : prime_count incr_wrap fuel 2147483647 = none := prime_count_INT_MAX fuel
  rw [hnone] at h
  exact Option.noConfusion h

/-- C2 (amended): for every `n < 2^31 - 1`, `prime_count` returns the number of
`i` with `2 ≤ i ≤ n` such that `i mod j ≠ 0` for every `j` with
`2 ≤ j ≤ i - 1`. -/
theorem prime_count_eq_trial_count (n : Int) (hn : n < 2 ^ 31 - 1) (fuel : Nat)
    (hf : 2 * n.toNat < fuel) :
    prime_count incr_wrap fuel n
      = some (((Finset.Icc (2 : Int) n).filter
          (fun i => ∀ j ∈ Finset.Icc (2 : Int) (i - 1), i % j ≠ 0)).card : Int) := by
  have hB : n < INT_MAX := by
    unfold INT_MAX
    norm_num at hn
    exact hn
  exact prime_count_spec incr_wrap INT_MAX wrap32_succ n hB fuel hf

/-- Witness of C2 (amended) at `n = 10` with 21 units of fuel. -/
theorem prime_count_eq_trial_count_witness :
    (10 : Int) < 2 ^ 31 - 1 ∧ 2 * (10 : Int).toNat < 21 ∧
      prime_count incr_wrap 21 10
        = some (((Finset.Icc (2 : Int) 10).filter
            (fun i => ∀ j ∈ Finset.Icc (2 : Int) (i - 1), i % j ≠ 0)).card : Int) :=
  ⟨by norm_num, by decide, prime_count_eq_trial_count 10 (by norm_num) 21 (by decide)⟩

/-- C3: for every `n < 2`, zero and negative `n` included, `prime_count`
returns 0 as soon as it has fuel for one test of `i <= n`: the outer loop body
is never entered, so the meaning of `++` plays no part. -/
theorem prime_count_zero_below_two (incr : Int → Option Int) (n : Int) (hn : n < 2)
    (fuel : Nat) (hf : 0 < fuel) : prime_count incr fuel n = some 0 :=
  prime_count_below_two incr n hn fuel hf

/-- Witness of C3 at `n = -7` with one unit of fuel. -/
theorem prime_count_zero_below_two_witness :
    (-7 : Int) < 2 ∧ 0 < 1 ∧ prime_count incr_wrap 1 (-7) = some 0 :=
  ⟨by decide, by decide, prime_count_zero_below_two incr_wrap (-7) (by decide) 1 (by decide)⟩

/-- C4: `prime_count(10000) = 1229`, with any fuel above 20000. -/
theorem prime_count_ten_thousand (fuel : Nat) (hf : 20000 < fuel) :
    prime_count incr_wrap fuel 10000 = some 1229 :=
  prime_count_bound_10000 fuel hf

/-- Witness of C4 with 20001 units of fuel. -/
theorem prime_count_ten_thousand_witness :
    20000 < 20001 ∧ prime_count incr_wrap 20001 10000 = some 1229 :=
  ⟨by decide, prime_count_ten_thousand 20001 (by decide)⟩

/-- C5: `main` writes exactly the five characters `1229` and newline to
standard output and returns exit status 0. -/
theorem main_prints_1229 (fuel : Nat) (hf : 20000 < fuel) :
    main fuel = some ("1229\n", 0) := by
  unfold main
  rw [prime_count_bound_10000 fuel hf]
  have : printf_d_newline 1229 = "1229\n" := by decide
  simp only [this]

/-- Witness of C5 with 20001 units of fuel. -/
theorem main_prints_1229_witness :
    20000 < 20001 ∧ main 20001 = some ("1229\n", 0) :=
  ⟨by decide, main_prints_1229 20001 (by decide)⟩

/-- C6, as stated, fails at `n1 = 0`, `n2 = 2^31 - 1`: `prime_count(n2)` has
no value to compare, whatever the fuel. -/
theorem no_value_to_compare_at_max :
    ¬ ∃ (fuel1 fuel2 : Nat) (r1 r2 : Int),
        prime_count incr_wrap fuel1 0 = some r1 ∧
        prime_count incr_wrap fuel2 2147483647 = some r2 ∧ r1 ≤ r2 := by
  rintro ⟨_, fuel2, _, r2, _, h, _⟩
  have hnone : prime_count incr_wrap fuel2 2147483647 = none := prime_count_INT_MAX fuel2
  rw [hnone] at h
  exact Option.noConfusion h

/-- C6 (amended): for all `n1 ≤ n2 < 2^31 - 1` both calls return and
`prime_count(n1) ≤ prime_count(n2)`. -/
theorem prime_count_monotone (n1 n2 : Int) (h12 : n1 ≤ n2) (hn : n2 < 2 ^ 31 - 1)
    (fuel1 fuel2 : Nat) (hf1 : 2 * n1.toNat < fuel1) (hf2 : 2 * n2.toNat < fuel2) :
    ∃ r1 r2 : Int, prime_count incr_wrap fuel1 n1 = some r1 ∧
      prime_count incr_wrap fuel2 n2 = some r2 ∧ r1 ≤ r2 := by
  have hB : n2 < INT_MAX := by
    unfold INT_MAX
    norm_num at hn
    exact hn
  refine ⟨_, _, prime_count_spec incr_wrap INT_MAX wrap32_succ n1 (by omega) fuel1 hf1,
    prime_count_spec incr_wrap INT_MAX wrap32_succ n2 hB fuel2 hf2, ?_⟩
  exact_mod_cast card_trial_prime_mono n1 n2 h12

/-- Witness of C6 (amended) at `n1 = 4`, `n2 = 10`. -/
theorem prime_count_monotone_witness :
    (4 : Int) ≤ 10 ∧ (10 : Int) < 2 ^ 31 - 1 ∧ 2 * (4 : Int).toNat < 9 ∧
      2 * (10 : Int).toNat < 21 ∧
      ∃ r1 r2 : Int, prime_count incr_wrap 9 4 = some r1 ∧
        prime_count incr_wrap 21 10 = some r2 ∧ r1 ≤ r2 :=
  ⟨by decide, by norm_num, by decide, by decide,
    prime_count_monotone 4 10 (by decide) (by norm_num) 9 21 (by decide) (by decide)⟩

/-- C7: with any fuel above 20, `prime_count(2) = 1`, `prime_count(3) = 2`,
`prime_count(4) = 2` and `prime_count(10) = 4`; for the candidate `i = 2` the
inner loop, entered with `j = 2` and `is_prime = 1`, ends at its first test
and leaves `is_prime = 1`. -/
theorem prime_count_small_values (fuel : Nat) (hf : 20 < fuel) :
    prime_count incr_wrap fuel 2 = some 1 ∧ prime_count incr_wrap fuel 3 = some 2 ∧
      prime_count incr_wrap fuel 4 = some 2 ∧ prime_count incr_wrap fuel 10 = some 4 ∧
      inner_loop incr_wrap 1 2 2 1 = some 1 ∧ inner_loop incr_wrap fuel 2 2 1 = some 1 := by
  have h1 : inner_loop incr_wrap 1 2 2 1 = some 1 := by decide
  refine ⟨prime_count_mono incr_wrap 2 21 fuel 1 hf (by decide),
    prime_count_mono incr_wrap 3 21 fuel 2 hf (by decide),
    prime_count_mono incr_wrap 4 21 fuel 2 hf (by decide),
    prime_count_mono incr_wrap 10 21 fuel 4 hf (by decide), h1, ?_⟩
  have := inner_loop_mono incr_wrap 2 1 2 1 1 h1 (fuel - 1)
  rwa [show 1 + (fuel - 1) = fuel by omega] at this

/-- Witness of C7 with 21 units of fuel. -/
theorem prime_count_small_values_witness :
    20 < 21 ∧
      (prime_count incr_wrap 21 2 = some 1 ∧ prime_count incr_wrap 21 3 = some 2 ∧
        prime_count incr_wrap 21 4 = some 2 ∧ prime_count incr_wrap 21 10 = some 4 ∧
        inner_loop incr_wrap 1 2 2 1 = some 1 ∧ inner_loop incr_wrap 21 2 2 1 = some 1) :=
  ⟨by decide, prime_count_small_values 21 (by decide)⟩

/-- C8: `prime_count` is deterministic and stateless.  Run on an explicit
frame of its four locals, a call stores `count = 0`, `i = 2`, `is_prime = 1`
and `j = 2` before it reads them, so what an earlier call left in the frame
plays no part: for every `n`, also one on which the call does not return, the
outcome is the same from any two frames and is that of `prime_count`; and any
sequence of calls on arguments below `INT_MAX`, in any order and from any
frame, returns at each position the number of primes up to the argument at that
position, a function of that argument alone. -/
theorem prime_count_stateless (fuel : Nat) (args : List Int)
    (h : ∀ n ∈ args, n < INT_MAX ∧ 2 * n.toNat < fuel) (s : Frame) :
    (∃ s', run_calls incr_wrap fuel args s
        = some (args.map (fun n => ((Nat.primeCounting n.toNat : Nat) : Int)), s')) ∧
      (∀ (n : Int) (t u : Frame),
        (prime_count_store incr_wrap fuel n t).map Prod.fst
          = (prime_count_store incr_wrap fuel n u).map Prod.fst) ∧
      (∀ (n : Int) (t : Frame),
        (prime_count_store incr_wrap fuel n t).map Prod.fst = prime_count incr_wrap fuel n) := by
  refine ⟨run_calls_results fuel args h s, fun n t u => ?_,
    fun n t => prime_count_store_result incr_wrap fuel n t⟩
  rw [prime_count_store_result, prime_count_store_result]

/-- Witness of C8: the calls on 3, 10 and 3 again, from a frame holding
leftovers. -/
theorem prime_count_stateless_witness :
    (∀ n ∈ [(3 : Int), 10, 3], n < INT_MAX ∧ 2 * n.toNat < 21) ∧
      ((∃ s', run_calls incr_wrap 21 [3, 10, 3] (Frame.mk 7 (-1) 5 9)
          = some ([(3 : Int), 10, 3].map (fun n => ((Nat.primeCounting n.toNat : Nat) : Int)),
              s')) ∧
        (∀ (n : Int) (t u : Frame),
          (prime_count_store incr_wrap 21 n t).map Prod.fst
            = (prime_count_store incr_wrap 21 n u).map Prod.fst) ∧
        (∀ (n : Int) (t : Frame),
          (prime_count_store incr_wrap 21 n t).map Prod.fst = prime_count incr_wrap 21 n)) :=
  ⟨by decide, prime_count_stateless 21 [3, 10, 3] (by decide) (Frame.mk 7 (-1) 5 9)⟩

/-- C9: for the representable input `n = 2^31 - 1` the count that
`prime_count` accumulates exceeds the largest representable value: the run of
the 32-bit program tests `i <= n` with `count = 2147483647`, finds `is_prime`
set for that `i`, executes `count++`, whose exact value `2147483648` does not
fit, and makes its next test with `count` wrapped to `-2147483648`. -/
theorem count_exceeds_largest_value :
    INT_MIN ≤ (2147483647 : Int) ∧ (2147483647 : Int) ≤ INT_MAX ∧
      INT_MAX < 2147483647 + 1 ∧ wrap32 (2147483647 + 1) = -2147483648 ∧
      ∃ (fuel : Nat) (i : Int) (pre post : List Event),
        (prime_count_trace incr_wrap fuel 2147483647).1
          = pre ++ Event.outer_test i 2147483647 :: Event.inner_test i 2 1 ::
              Event.outer_test (i + 1) (-2147483648) :: post :=
  ⟨by decide, by decide, by decide, by decide, prime_count_trace_count_wraps⟩

/-- C10: the bitwise AND acts as a logical AND.  Whenever `is_prime` is 0 or
1, the comparison `i % j != 0` is 0 or 1, the updated `is_prime` is 0 or 1
and equals what `is_prime && (i % j != 0)` gives; for a candidate
`2 ≤ i ≤ INT_MAX` the inner pass ends with `is_prime = 1` if `i mod j ≠ 0` for
every `j` in `[2, i - 1]` and with `is_prime = 0` otherwise; and `prime_count`
with `&&` in place of `&` is the same function, for every meaning of `++`,
every fuel and every `n`. -/
theorem bitwise_and_is_logical_and (i : Int) (h2 : 2 ≤ i) (hi : i ≤ INT_MAX) (fuel : Nat)
    (hf : (i - 2).toNat < fuel) (j b : Int) (hb : b = 0 ∨ b = 1) :
    ((if Int.tmod i j ≠ 0 then (1 : Int) else 0) = 0 ∨
        (if Int.tmod i j ≠ 0 then (1 : Int) else 0) = 1) ∧
      (is_prime_update i j b = 0 ∨ is_prime_update i j b = 1) ∧
      is_prime_update i j b = is_prime_update_logical i j b ∧
      inner_loop incr_wrap fuel i 2 1
        = some (if ∀ k ∈ Finset.Icc (2 : Int) (i - 1), i % k ≠ 0 then 1 else 0) ∧
      (∀ (incr : Int → Option Int) (fuel' : Nat) (n : Int),
        prime_count_logical incr fuel' n = prime_count incr fuel' n) := by
  refine ⟨?_, (is_prime_update_bit i j b hb).1, (is_prime_update_logical_eq i j b hb).symm,
    inner_loop_result i h2 hi fuel hf, ?_⟩
  · by_cases h : Int.tmod i j = 0
    · left; simp [h]
    · right; simp [h]
  · intro incr fuel' n
    exact outer_loop_logical_eq incr n fuel' 2 0

/-- Witness of C10 at the candidate `i = 5` with `j = 2`, `is_prime = 1`. -/
theorem bitwise_and_is_logical_and_witness :
    (2 : Int) ≤ 5 ∧ (5 : Int) ≤ INT_MAX ∧ ((5 : Int) - 2).toNat < 4 ∧
      ((1 : Int) = 0 ∨ (1 : Int) = 1) ∧
      (((if Int.tmod 5 2 ≠ 0 then (1 : Int) else 0) = 0 ∨
          (if Int.tmod 5 2 ≠ 0 then (1 : Int) else 0) = 1) ∧
        (is_prime_update 5 2 1 = 0 ∨ is_prime_update 5 2 1 = 1) ∧
        is_prime_update 5 2 1 = is_prime_update_logical 5 2 1 ∧
        inner_loop incr_wrap 4 5 2 1
          = some (if ∀ k ∈ Finset.Icc (2 : Int) (5 - 1), (5 : Int) % k ≠ 0 then 1 else 0) ∧
        (∀ (incr : Int → Option Int) (fuel' : Nat) (n : Int),
          prime_count_logical incr fuel' n = prime_count incr fuel' n)) :=
  ⟨by decide, by decide, by decide, Or.inr rfl,
    bitwise_and_is_logical_and 5 (by decide) (by decide) 4 (by decide) 2 1 (Or.inr rfl)⟩

/-- C11: the early-exit variant returns what `prime_count` returns, for every
`n`: a value is returned by one exactly when it is returned by the other (at
`n ≥ 2^31 - 1` neither returns), the variant never needs more fuel, and for
`n < 2^31 - 1` both do return, the same value, with any fuel above `2 * n`. -/
theorem early_exit_same_result (n : Int) :
    (∀ r, (∃ fuel, prime_count incr_wrap fuel n = some r) ↔
        (∃ fuel, prime_count_early incr_wrap fuel n = some r)) ∧
      (∀ fuel r, prime_count incr_wrap fuel n = some r →
        prime_count_early incr_wrap fuel n = some r) ∧
      (n < 2 ^ 31 - 1 → ∀ fuel, 2 * n.toNat < fuel →
        ∃ r, prime_count incr_wrap fuel n = some r ∧
          prime_count_early incr_wrap fuel n = some r) := by
  refine ⟨fun r => prime_count_early_iff n r,
    fun fuel r h => outer_loop_early_of_outer_loop incr_wrap n fuel 2 0 r h, ?_⟩
  intro hn fuel hf
  have hs := prime_count_spec incr_wrap INT_MAX wrap32_succ n (lt_INT_MAX_of_lt n hn) fuel hf
  exact ⟨_, hs, outer_loop_early_of_outer_loop incr_wrap n fuel 2 0 _ hs⟩

/-- Witness of C11 at `n = 10` with 21 units of fuel. -/
theorem early_exit_same_result_witness :
    (10 : Int) < 2 ^ 31 - 1 ∧ 2 * (10 : Int).toNat < 21 ∧
      ∃ r, prime_count incr_wrap 21 10 = some r ∧ prime_count_early incr_wrap 21 10 = some r :=
  ⟨by norm_num, by decide, (early_exit_same_result 10).2.2 (by norm_num) 21 (by decide)⟩

/-- C12: at `n = 10000`, with any fuel above 20000, the run on wrapping 32-bit
integers and the run on exact integers are the same event for event; both return
1229; and every value of `i`, `j`, `i % j`, `is_prime` and `count` that occurs
lies in the signed 32-bit range. -/
theorem fixed_width_equals_exact_at_10000 (fuel : Nat) (hf : 20000 < fuel) :
    prime_count_trace incr_wrap fuel 10000 = prime_count_trace incr_exact fuel 10000 ∧
      prime_count incr_wrap fuel 10000 = some 1229 ∧
      prime_count incr_exact fuel 10000 = some 1229 ∧
      (∀ e ∈ (prime_count_trace incr_exact fuel 10000).1, ∀ v ∈ e.values,
        INT_MIN ≤ v ∧ v ≤ INT_MAX) := by
  have hB : (10000 : Int) < INT_MAX := by decide
  have hcongr := prime_count_trace_congr incr_wrap incr_exact INT_MAX wrap32_succ
    (incr_exact_succ INT_MAX) 10000 hB fuel
  have hw := prime_count_bound_10000 fuel hf
  refine ⟨hcongr, hw, ?_, ?_⟩
  · rw [← prime_count_trace_result, ← hcongr, prime_count_trace_result]
    exact hw
  · intro e he
    exact Event.bounded_values 10000 hB e
      (prime_count_trace_bounded incr_exact INT_MAX (incr_exact_succ INT_MAX) 10000 hB fuel e he)

/-- Witness of C12 with 20001 units of fuel. -/
theorem fixed_width_equals_exact_at_10000_witness :
    20000 < 20001 ∧
      (prime_count_trace incr_wrap 20001 10000 = prime_count_trace incr_exact 20001 10000 ∧
        prime_count incr_wrap 20001 10000 = some 1229 ∧
        prime_count incr_exact 20001 10000 = some 1229 ∧
        (∀ e ∈ (prime_count_trace incr_exact 20001 10000).1, ∀ v ∈ e.values,
          INT_MIN ≤ v ∧ v ≤ INT_MAX)) :=
  ⟨by decide, fixed_width_equals_exact_at_10000 20001 (by decide)⟩

/-- C13, as stated, fails at `n = 2^31 - 1`, which is at least 2: the
instrumented run never completes there, so it has no total number of modulo
operations. -/
theorem no_completed_run_at_max :
    ¬ ∃ (fuel : Nat) (r : Int), (prime_count_trace incr_wrap fuel 2147483647).2 = some r := by
  rintro ⟨fuel, r, h⟩
  rw [prime_count_trace_result] at h
  have hnone : prime_count incr_wrap fuel 2147483647 = none := prime_count_INT_MAX fuel
  rw [hnone] at h
  exact Option.noConfusion h

/-- C13 (amended): the instrumented program takes the same steps as
`prime_count`.  For every candidate `2 ≤ i ≤ INT_MAX` the inner loop evaluates
`i % j` exactly `i - 2` times, whatever the flag `is_prime` holds, and for every
`n < 2^31 - 1` the run completes with exactly `(n - 1) * (n - 2) / 2`
evaluations when `n ≥ 2` and none when `n < 2`. -/
theorem modulo_operations_total (n : Int) (hn : n < 2 ^ 31 - 1) (fuel : Nat)
    (hf : 2 * n.toNat < fuel) (i : Int) (h2 : 2 ≤ i) (hi : i ≤ INT_MAX) (fuel_i : Nat)
    (hfi : (i - 2).toNat < fuel_i) (b : Int) :
    modulo_count (inner_loop_trace incr_wrap fuel_i i 2 b).1 = (i - 2).toNat ∧
      (∀ f m, (prime_count_trace incr_wrap f m).2 = prime_count incr_wrap f m) ∧
      (∃ r, (prime_count_trace incr_wrap fuel n).2 = some r) ∧
      (2 ≤ n → (modulo_count (prime_count_trace incr_wrap fuel n).1 : Int)
        = (n - 1) * (n - 2) / 2) ∧
      (n < 2 → modulo_count (prime_count_trace incr_wrap fuel n).1 = 0) := by
  have hB := lt_INT_MAX_of_lt n hn
  have hc := prime_count_trace_count incr_wrap INT_MAX wrap32_succ n hB fuel hf
  have hs := prime_count_spec incr_wrap INT_MAX wrap32_succ n hB fuel hf
  rw [← prime_count_trace_result] at hs
  exact ⟨inner_loop_trace_count incr_wrap INT_MAX wrap32_succ i hi fuel_i 2 b (le_refl 2) h2 hfi,
    fun f m => prime_count_trace_result incr_wrap f m, ⟨_, hs⟩, hc.1, hc.2⟩

/-- Witness of C13 (amended) at `n = 10` and the candidate `i = 7`. -/
theorem modulo_operations_total_witness :
    (10 : Int) < 2 ^ 31 - 1 ∧ 2 * (10 : Int).toNat < 21 ∧ (2 : Int) ≤ 7 ∧ (7 : Int) ≤ INT_MAX ∧
      ((7 : Int) - 2).toNat < 6 ∧
      (modulo_count (inner_loop_trace incr_wrap 6 7 2 1).1 = ((7 : Int) - 2).toNat ∧
        (∀ f m, (prime_count_trace incr_wrap f m).2 = prime_count incr_wrap f m) ∧
        (∃ r, (prime_count_trace incr_wrap 21 10).2 = some r) ∧
        ((2 : Int) ≤ 10 → (modulo_count (prime_count_trace incr_wrap 21 10).1 : Int)
          = (10 - 1) * (10 - 2) / 2) ∧
        ((10 : Int) < 2 → modulo_count (prime_count_trace incr_wrap 21 10).1 = 0)) :=
  ⟨by norm_num, by decide, by decide, by decide, by decide,
    modulo_operations_total 10 (by norm_num) 21 (by decide) 7 (by decide) (by decide) 6
      (by decide) 1⟩

/-- C14, as stated, fails at `n = 0`: the complete run tests `i <= n` with
`i = 2`, which exceeds `n + 1 = 1`. -/
theorem outer_counter_above_bound_at_zero :
    prime_count_trace incr_wrap 1 0 = ([Event.outer_test 2 0], some 0) ∧
      ¬ ((2 : Int) ≤ 0 + 1) := by
  decide

/-- C14 (amended): for every `n < 2^31 - 1`, `prime_count` returns, and does so
without any overflow of `i`, `j` or `count`: the run in which an overflowing
`++` is an error is, event for event, the wrapping run; the outer counter `i`
never exceeds `max (n + 1) 2` and the inner counter `j` never exceeds `i`. -/
theorem terminates_without_overflow (n : Int) (hn : n < 2 ^ 31 - 1) (fuel : Nat)
    (hf : 2 * n.toNat < fuel) :
    (∃ c, prime_count incr_checked fuel n = some c ∧ prime_count incr_wrap fuel n = some c) ∧
      prime_count_trace incr_checked fuel n = prime_count_trace incr_wrap fuel n ∧
      (∀ i c, Event.outer_test i c ∈ (prime_count_trace incr_wrap fuel n).1 →
        2 ≤ i ∧ i ≤ max (n + 1) 2 ∧ i ≤ INT_MAX ∧ 0 ≤ c ∧ c < INT_MAX) ∧
      (∀ i j p, Event.inner_test i j p ∈ (prime_count_trace incr_wrap fuel n).1 →
        2 ≤ j ∧ j ≤ i ∧ i ≤ n) := by
  have hB := lt_INT_MAX_of_lt n hn
  have hbd := prime_count_trace_bounded incr_wrap INT_MAX wrap32_succ n hB fuel
  refine ⟨⟨_, prime_count_spec incr_checked INT_MAX incr_checked_succ n hB fuel hf,
      prime_count_spec incr_wrap INT_MAX wrap32_succ n hB fuel hf⟩,
    prime_count_trace_congr incr_checked incr_wrap INT_MAX incr_checked_succ wrap32_succ n hB
      fuel, ?_, ?_⟩
  · intro i c h
    obtain ⟨h1, h2, h3, h4⟩ := hbd _ h
    have h2' : i ≤ n + 1 ∨ i ≤ 2 := le_max_iff.mp h2
    unfold INT_MAX at hB ⊢
    refine ⟨h1, h2, ?_, h3, ?_⟩ <;> omega
  · intro i j p h
    obtain ⟨h1, h2, h3, _⟩ := hbd _ h
    exact ⟨h1, h2, h3⟩

/-- Witness of C14 (amended) at `n = 10` with 21 units of fuel. -/
theorem terminates_without_overflow_witness :
    (10 : Int) < 2 ^ 31 - 1 ∧ 2 * (10 : Int).toNat < 21 ∧
      ((∃ c, prime_count incr_checked 21 10 = some c ∧ prime_count incr_wrap 21 10 = some c) ∧
        prime_count_trace incr_checked 21 10 = prime_count_trace incr_wrap 21 10 ∧
        (∀ i c, Event.outer_test i c ∈ (prime_count_trace incr_wrap 21 10).1 →
          2 ≤ i ∧ i ≤ max (10 + 1) 2 ∧ i ≤ INT_MAX ∧ 0 ≤ c ∧ c < INT_MAX) ∧
        (∀ i j p, Event.inner_test i j p ∈ (prime_count_trace incr_wrap 21 10).1 →
          2 ≤ j ∧ j ≤ i ∧ i ≤ 10)) :=
  ⟨by norm_num, by decide, terminates_without_overflow 10 (by norm_num) 21 (by decide)⟩

/-- C15: for every input `n` and every amount of fuel, whenever the run
evaluates `i % j` it does so with `2 ≤ j < i`: the divisor is never zero and
never negative. -/
theorem modulo_divisor_in_range (n : Int) (fuel : Nat) (i j : Int)
    (h : Event.modulo i j ∈ (prime_count_trace incr_wrap fuel n).1) : 2 ≤ j ∧ j < i :=
  prime_count_trace_safe n fuel i j h

/-- Witness of C15: the run on `n = 5` evaluates `4 % 3`. -/
theorem modulo_divisor_in_range_witness :
    Event.modulo 4 3 ∈ (prime_count_trace incr_wrap 11 5).1 ∧ ((2 : Int) ≤ 3 ∧ (3 : Int) < 4) :=
  ⟨by decide, modulo_divisor_in_range 5 11 4 3 (by decide)⟩

/-- C16: for every `n ≥ 1` with `n + 1 < 2^31 - 1`, both calls return, and
`prime_count(n + 1)` is `prime_count(n) + 1` if `n + 1` is prime and
`prime_count(n)` otherwise; the two results differ by 0 or 1. -/
theorem prime_count_step (n : Int) (h1 : 1 ≤ n) (hn : n + 1 < 2 ^ 31 - 1) (fuel1 fuel2 : Nat)
    (hf1 : 2 * n.toNat < fuel1) (hf2 : 2 * (n + 1).toNat < fuel2) :
    ∃ r r' : Int, prime_count incr_wrap fuel1 n = some r ∧
      prime_count incr_wrap fuel2 (n + 1) = some r' ∧
      r' = (if Nat.Prime (n + 1).toNat then r + 1 else r) ∧ (r' = r ∨ r' = r + 1) := by
  have hB := lt_INT_MAX_of_lt (n + 1) hn
  have e1 := prime_count_spec incr_wrap INT_MAX wrap32_succ n (by omega) fuel1 hf1
  have e2 := prime_count_spec incr_wrap INT_MAX wrap32_succ (n + 1) hB fuel2 hf2
  rw [card_trial_prime_eq_primeCounting] at e1 e2
  have hto : (n + 1).toNat = n.toNat + 1 := by omega
  rw [hto, primeCounting_succ] at e2
  rw [hto]
  refine ⟨_, _, e1, e2, ?_, ?_⟩
  · by_cases hp : Nat.Prime (n.toNat + 1)
    · simp [hp]
    · simp [hp]
  · by_cases hp : Nat.Prime (n.toNat + 1)
    · right; simp [hp]
    · left; simp [hp]

/-- Witness of C16 at `n = 6`: 7 is prime. -/
theorem prime_count_step_witness :
    (1 : Int) ≤ 6 ∧ (6 : Int) + 1 < 2 ^ 31 - 1 ∧ 2 * (6 : Int).toNat < 13 ∧
      2 * ((6 : Int) + 1).toNat < 15 ∧
      ∃ r r' : Int, prime_count incr_wrap 13 6 = some r ∧
        prime_count incr_wrap 15 (6 + 1) = some r' ∧
        r' = (if Nat.Prime ((6 : Int) + 1).toNat then r + 1 else r) ∧ (r' = r ∨ r' = r + 1) :=
  ⟨by decide, by norm_num, by decide, by decide,
    prime_count_step 6 (by decide) (by norm_num) 13 15 (by decide) (by decide)⟩

/-- C17, as stated, fails at `n = 2^31 - 1`: no fuel makes `prime_count` return
there, so there is no result to lie between 0 and `n - 1`. -/
theorem no_bounded_result_at_max :
    ¬ ∃ (fuel : Nat) (r : Int), prime_count incr_wrap fuel 2147483647 = some r ∧
        0 ≤ r ∧ r ≤ 2147483647 - 1 := by
  rintro ⟨fuel, r, h, _⟩
  have hnone : prime_count incr_wrap fuel 2147483647 = none := prime_count_INT_MAX fuel
  rw [hnone] at h
  exact Option.noConfusion h

/-- C17 (amended): for every `n < 2^31 - 1`, `prime_count` returns a result
`r ≥ 0`, with `r ≤ n - 1` when `n ≥ 1`; throughout the run `count` is at least
0 and at most `i - 2`, one increment per candidate already passed, so it stays
below `n` when `n ≥ 1`. -/
theorem prime_count_bounded_by_input (n : Int) (hn : n < 2 ^ 31 - 1) (fuel : Nat)
    (hf : 2 * n.toNat < fuel) :
    (∃ r, prime_count incr_wrap fuel n = some r ∧ 0 ≤ r ∧ (1 ≤ n → r ≤ n - 1)) ∧
      (∀ i c, Event.outer_test i c ∈ (prime_count_trace incr_wrap fuel n).1 →
        0 ≤ c ∧ c + 2 ≤ i ∧ (1 ≤ n → c < n)) := by
  have hB := lt_INT_MAX_of_lt n hn
  have hle := card_trial_prime_le n
  refine ⟨⟨_, prime_count_spec incr_wrap INT_MAX wrap32_succ n hB fuel hf,
    Int.natCast_nonneg _, fun h1 => by omega⟩, ?_⟩
  intro i c h
  obtain ⟨_, h2, h3, h4⟩ := prime_count_trace_bounded incr_wrap INT_MAX wrap32_succ n hB fuel _ h
  have h2' : i ≤ n + 1 ∨ i ≤ 2 := le_max_iff.mp h2
  exact ⟨h3, h4, fun h1 => by omega⟩

/-- Witness of C17 (amended) at `n = 10` with 21 units of fuel. -/
theorem prime_count_bounded_by_input_witness :
    (10 : Int) < 2 ^ 31 - 1 ∧ 2 * (10 : Int).toNat < 21 ∧
      ((∃ r, prime_count incr_wrap 21 10 = some r ∧ 0 ≤ r ∧ ((1 : Int) ≤ 10 → r ≤ 10 - 1)) ∧
        (∀ i c, Event.outer_test i c ∈ (prime_count_trace incr_wrap 21 10).1 →
          0 ≤ c ∧ c + 2 ≤ i ∧ ((1 : Int) ≤ 10 → c < 10))) :=
  ⟨by norm_num, by decide, prime_count_bounded_by_input 10 (by norm_num) 21 (by decide)⟩

end PrimeCount
